import Mathlib

/-!
# Web crawler (exercise-web-crawler.go)

A shallow embedding of the Go program: the shared `SafeCounter` (a set of
addresses kept as the keys of a map, a mutex and a wait group), the
check-and-mark method `visited`, the recursive `Crawl` and the table-backed
`fakeFetcher`.

Goroutines are modelled by a list of activation frames of `Crawl`; one step
of the crawl runs the next statement of one frame, chosen by a schedule.
Every statement that touches shared state is a step of its own: the call of
`visited` (which copies the receiver), each statement inside `visited` (the
lock of the copied mutex, the lookup in the shared map, the insertion), the
test of the returned value, the call of `Fetch` with its print, `wg.Add(1)`,
the `go` statement, and the deferred `wg.Done()`.

A step runs one statement to its end.  The stop of the whole process by the
Go runtime, when a write to the map overlaps another access to it, is not a
step: `overlap` describes the states in which it can happen, and `run` has it
as one of the two ways a run ends.
-/

namespace Crawler

/-! ## Data model -/

/-- The struct `SafeCounter` (lines 8-12): `set` holds the keys of the map,
`mux` tells whether the mutex is locked, `wg` is the wait group counter. -/
structure SafeCounter where
  set : List String
  mux : Bool
  wg : Int
  deriving DecidableEq, Repr

/-- The global `counter` of line 20: an empty map, an unlocked mutex and a
wait group at zero. -/
def counter : SafeCounter := { set := [], mux := false, wg := 0 }

/-- The interface `Fetcher` (lines 14-18): `Fetch` returns the body and the
urls of a page, or an error. -/
abbrev Fetcher := String → Except String (String × List String)

/-- The method `visited` (lines 22-31) run from entry to return with no other
access to the map in between: the map of the receiver copy is the shared map,
so the insertion is visible in the returned counter. -/
def visited (sc : SafeCounter) (url : String) : Bool × SafeCounter :=
  let presense := decide (url ∈ sc.set)
  if !presense then
    (false, { sc with set := sc.set.insert url })
  else
    (true, sc)

/-- The call `wg.Add(n)`. -/
def SafeCounter.Add (sc : SafeCounter) (n : Int) : SafeCounter :=
  { sc with wg := sc.wg + n }

/-- The call `wg.Done()`. -/
def SafeCounter.Done (sc : SafeCounter) : SafeCounter :=
  { sc with wg := sc.wg - 1 }

/-- Results of a sequence of calls of `visited`, one after the other. -/
def visitedAll : SafeCounter → List String → List Bool
  | _, [] => []
  | sc, url :: rest => (visited sc url).1 :: visitedAll (visited sc url).2 rest

/-! ## The statements of visited -/

/-- The statement an activation of `visited` runs next: `sc.mux.Lock()`
(line 23), the lookup of line 25, the test of line 26 with the insertion and
the return, or nothing more once it has returned. -/
inductive VisitPc where
  | lock
  | lookup
  | branch
  | returned
  deriving DecidableEq, Repr

/-- An activation of `visited`.  The receiver `sc` is passed by value (line
22), so `mux` is the mutex of this activation, a copy of the one in `counter`;
the map inside the copy is the shared map. -/
structure VisitCall where
  url : String
  mux : Bool
  pc : VisitPc
  presense : Bool
  result : Option Bool
  deriving DecidableEq, Repr

/-- The call `counter.visited(url)`: the receiver is copied, mutex included. -/
def VisitCall.enter (sc : SafeCounter) (url : String) : VisitCall :=
  { url := url, mux := sc.mux, pc := .lock, presense := false, result := none }

/-- One statement of `visited` on the shared map; `Lock` waits (no step)
while the mutex of this activation is held. -/
def VisitCall.next (set : List String) (c : VisitCall) : Option (List String × VisitCall) :=
  match c.pc with
  | .lock => if c.mux then none else some (set, { c with mux := true, pc := .lookup })
  | .lookup => some (set, { c with presense := decide (c.url ∈ set), pc := .branch })
  | .branch =>
    if !c.presense then
      some (set.insert c.url, { c with mux := false, result := some false, pc := .returned })
    else
      some (set, { c with mux := false, result := some true, pc := .returned })
  | .returned => none

/-- The number of statements of `visited` an activation has yet to run. -/
def VisitCall.left (c : VisitCall) : Nat :=
  match c.pc with
  | .lock => 3
  | .lookup => 2
  | .branch => 1
  | .returned => 0

/-! ## Crawl -/

/-- What a crawl does that can be observed: a call of `Fetch` (tagged with the
depth of the calling invocation), the line printed for a page (line 50) and
the error printed for a failed fetch (line 47, tagged with the address). -/
inductive Event where
  | fetch (url : String) (depth : Int)
  | found (url : String) (body : String)
  | failed (url : String) (err : String)
  deriving DecidableEq, Repr

/-- An activation of `Crawl`, at the statement it runs next.
* `entry`: spawned, the body not yet started (line 38);
* `visiting`: inside the call of `visited` of line 42, or at the test of the
  value it returned;
* `claimed`: `visited` returned false, `Fetch` comes next (line 45);
* `ranging`: in the loop of line 51 with these urls left;
* `registered`: `wg.Add(1)` done for `u`, the `go` statement comes next;
* `returning`: at a return, the deferred `wg.Done()` comes next. -/
inductive Frame where
  | entry (url : String) (depth : Int)
  | visiting (call : VisitCall) (depth : Int)
  | claimed (url : String) (depth : Int)
  | ranging (urls : List String) (depth : Int)
  | registered (u : String) (rest : List String) (depth : Int)
  | returning
  deriving DecidableEq, Repr

/-- The whole program state: the shared counter, the live activations of
`Crawl`, and what was observed so far. -/
structure State where
  counter : SafeCounter
  frames : List Frame
  out : List Event
  deriving DecidableEq, Repr

/-- The function `Crawl` (lines 35-56) run from entry to return as one block,
no other goroutine running in between: the resulting counter, the goroutines
it started, and what it printed and fetched. -/
def Crawl (url : String) (depth : Int) (fetcher : Fetcher) (c : SafeCounter) :
    SafeCounter × List Frame × List Event :=
  if depth ≤ 0 then
    (c.Done, [], [])
  else
    match visited c url with
    | (true, c1) => (c1.Done, [], [])
    | (false, c1) =>
      match fetcher url with
      | .error err => (c1.Done, [], [.fetch url depth, .failed url err])
      | .ok (body, urls) =>
        ((urls.foldl (fun acc _ => acc.Add 1) c1).Done,
          urls.map (fun u => Frame.entry u (depth - 1)),
          [.fetch url depth, .found url body])

/-- One statement of `Crawl` run by one activation: the new counter, the
frames that replace the activation (its continuation, then a goroutine it
started), and the events of the statement.  The call of `visited` is not one
statement: the activation enters it with a copy of the receiver and then runs
its statements one by one on the shared map, other activations in between.
There is no step while `Lock` waits. -/
def Crawl.next (fetcher : Fetcher) (c : SafeCounter) :
    Frame → Option (SafeCounter × List Frame × List Event)
  | .entry url depth =>
    if depth ≤ 0 then some (c, [.returning], [])
    else some (c, [.visiting (VisitCall.enter c url) depth], [])
  | .visiting call depth =>
    match call.pc with
    | .returned =>
      if call.result = some true then some (c, [.returning], [])
      else some (c, [.claimed call.url depth], [])
    | _ =>
      match call.next c.set with
      | some (set, call1) => some ({ c with set := set }, [.visiting call1 depth], [])
      | none => none
  | .claimed url depth =>
    match fetcher url with
    | .error err => some (c, [.returning], [.fetch url depth, .failed url err])
    | .ok (body, urls) =>
      some (c, [.ranging urls depth], [.fetch url depth, .found url body])
  | .ranging [] _ => some (c, [.returning], [])
  | .ranging (u :: rest) depth => some (c.Add 1, [.registered u rest depth], [])
  | .registered u rest depth => some (c, [.ranging rest depth, .entry u (depth - 1)], [])
  | .returning => some (c.Done, [], [])

/-- One step of the crawl: the activation at position `i` runs its next
statement.  There is no step when `i` is not a live activation, or when the
activation waits for a lock. -/
def step (fetcher : Fetcher) (s : State) (i : Nat) : Option State :=
  match s.frames[i]? with
  | none => none
  | some fr =>
    match Crawl.next fetcher s.counter fr with
    | none => none
    | some (c, frs, evs) =>
      some { counter := c
             frames := s.frames.take i ++ frs ++ s.frames.drop (i + 1)
             out := s.out ++ evs }

/-- An execution: the steps of a schedule, one after the other. -/
def exec (fetcher : Fetcher) : State → List Nat → Option State
  | s, [] => some s
  | s, i :: sched => (step fetcher s i).bind (fun s1 => exec fetcher s1 sched)

/-- The state of `main` at line 60, for any root and depth: the counter of
line 20 after `wg.Add(1)`, and the call of `Crawl` about to run. -/
def startCrawl (url : String) (depth : Int) : State :=
  { counter := counter.Add 1, frames := [.entry url depth], out := [] }

/-- The call `wg.Wait()` of line 61 returns when the counter is zero. -/
def waitReturns (s : State) : Bool := s.counter.wg == 0

/-! ## Overlapping accesses to the map -/

/-- The next statement of the frame reads the shared map (line 25). -/
def Frame.readsMap : Frame → Bool
  | .visiting call _ => decide (call.pc = .lookup)
  | _ => false

/-- The next statement of the frame writes the shared map (line 27). -/
def Frame.writesMap : Frame → Bool
  | .visiting call _ => decide (call.pc = .branch) && !call.presense
  | _ => false

/-- In state `s` the insertion of line 27 by activation `i` and an access to
the same map by another activation `j` are both the next statement of their
goroutine, with nothing that orders them: the two can run at the same time.
The Go runtime checks for this when it writes a map and stops the whole
process with a fatal error (concurrent map writes, or concurrent map read and
map write); no goroutine runs after that and `wg.Wait()` does not return. -/
def overlap (s : State) (i j : Nat) : Bool :=
  decide (i ≠ j) &&
    match s.frames[i]?, s.frames[j]? with
    | some fi, some fj => fi.writesMap && (fj.readsMap || fj.writesMap)
    | _, _ => false

/-- How a run of the program ends: `wg.Wait()` returns with every activation
gone, or the Go runtime stops the process at overlapping accesses to the map. -/
inductive Outcome where
  | completed (out : List Event)
  | fatal (s : State)
  deriving DecidableEq, Repr

/-- A run of the program: the steps of a schedule and then its end.  With no
clash named, the run has completed if no activation is left and `wg.Wait()`
returns; with the clash `(i, j)`, the runtime stops the process in the state
reached, provided the accesses of activations `i` and `j` overlap there.
There is no outcome otherwise. -/
def run (fetcher : Fetcher) (s0 : State) (sched : List Nat) (clash : Option (Nat × Nat)) :
    Option Outcome :=
  match exec fetcher s0 sched with
  | none => none
  | some s =>
    match clash with
    | none => if s.frames = [] ∧ waitReturns s = true then some (.completed s.out) else none
    | some (i, j) => if overlap s i j = true then some (.fatal s) else none

/-! ## fakeFetcher -/

/-- The struct `fakeResult` (lines 67-70). -/
structure fakeResult where
  body : String
  urls : List String
  deriving DecidableEq, Repr

/-- The type `fakeFetcher` (line 65): a table from address to canned result. -/
abbrev fakeFetcher := List (String × fakeResult)

/-- The method `fakeFetcher.Fetch` (lines 72-77). -/
def fakeFetcher.Fetch (f : fakeFetcher) : Fetcher := fun url =>
  match f.lookup url with
  | some res => .ok (res.body, res.urls)
  | none => .error ("not found: " ++ url)

/-- The populated `fetcher` of lines 80-111. -/
def fetcher : fakeFetcher :=
  [ ("https://golang.org/",
      ⟨"The Go Programming Language",
       ["https://golang.org/pkg/", "https://golang.org/cmd/"]⟩),
    ("https://golang.org/pkg/",
      ⟨"Packages",
       ["https://golang.org/", "https://golang.org/cmd/",
        "https://golang.org/pkg/fmt/", "https://golang.org/pkg/os/"]⟩),
    ("https://golang.org/pkg/fmt/",
      ⟨"Package fmt", ["https://golang.org/", "https://golang.org/pkg/"]⟩),
    ("https://golang.org/pkg/os/",
      ⟨"Package os", ["https://golang.org/", "https://golang.org/pkg/"]⟩) ]

/-- The state of `main` (lines 58-62) when it calls `Crawl`. -/
def main : State := startCrawl "https://golang.org/" 4

/-! ## Observations -/

/-- Tells whether an event is a call of `Fetch` with address `u`. -/
def Event.fetches (u : String) : Event → Bool
  | .fetch v _ => decide (v = u)
  | _ => false

/-- The number of calls of `Fetch` with address `u` among the events. -/
def fetchCount (u : String) (es : List Event) : Nat := es.countP (Event.fetches u)

/-- The number of units of work a frame stands for in the wait group: itself,
and one more for a link it has registered but not yet started. -/
def Frame.units : Frame → Nat
  | .registered _ _ _ => 2
  | _ => 1

/-- The number of registered branches that have not yet completed. -/
def outstanding (s : State) : Nat := (s.frames.map Frame.units).sum

/-- The links of a page: the urls of a successful fetch, none on failure. -/
def links (fetcher : Fetcher) (u : String) : List String :=
  match fetcher u with
  | .ok (_, urls) => urls
  | .error _ => []

/-- The addresses at the end of a path of exactly `n` links from the root. -/
def level (fetcher : Fetcher) (root : String) : Nat → List String
  | 0 => [root]
  | n + 1 => (level fetcher root n).flatMap (links fetcher)

/-- Address `u` with remaining depth `k` lies on a path from the root whose
length and `k` add up to the depth of the crawl. -/
def OnPath (fetcher : Fetcher) (root : String) (d : Int) (u : String) (k : Int) : Prop :=
  ∃ n : Nat, (n : Int) + k = d ∧ u ∈ level fetcher root n

/-- The frame invariant behind the depth bound: every address a frame holds
lies on a path from the root of the matching length. -/
def Frame.onPath (fetcher : Fetcher) (root : String) (d : Int) : Frame → Prop
  | .entry u k => OnPath fetcher root d u k
  | .visiting call k => 0 < k ∧ OnPath fetcher root d call.url k
  | .claimed u k => 0 < k ∧ OnPath fetcher root d u k
  | .ranging urls k => ∀ v ∈ urls, OnPath fetcher root d v (k - 1)
  | .registered u rest k =>
    OnPath fetcher root d u (k - 1) ∧ ∀ v ∈ rest, OnPath fetcher root d v (k - 1)
  | .returning => True

/-- A frame at `Lock` holds an unlocked copy of the mutex. -/
def Frame.canLock : Frame → Prop
  | .visiting call _ => call.pc = .lock → call.mux = false
  | _ => True

/-- Frame `fr` will start, or is, a branch for `v` with positive depth that
has not yet found `v` in the set. -/
def Frame.carries (v : String) : Frame → Prop
  | .entry u k => u = v ∧ 0 < k
  | .visiting call k =>
    call.url = v ∧ 0 < k ∧ call.pc ≠ .returned ∧ (call.pc = .branch → call.presense = false)
  | .ranging urls k => v ∈ urls ∧ 1 < k
  | .registered u rest k => (u = v ∨ v ∈ rest) ∧ 1 < k
  | _ => False

/-- Address `v` is marked in the set, or a frame still carries it. -/
def Pending (s : State) (v : String) : Prop :=
  v ∈ s.counter.set ∨ ∃ fr ∈ s.frames, fr.carries v

/-- Frame `fr` has inserted `v` into the set and has yet to fetch it. -/
def Frame.claimer (v : String) : Frame → Prop
  | .visiting call _ => call.url = v ∧ call.pc = .returned ∧ call.result = some false
  | .claimed u _ => u = v
  | _ => False

/-- The call of `visited` of the root branch, alone in the crawl, is on its
way to return false. -/
def VisitCall.fresh (call : VisitCall) (set : List String) : Prop :=
  (call.pc = .lock ∧ call.mux = false ∧ set = []) ∨ (call.pc = .lookup ∧ set = []) ∨
  (call.pc = .branch ∧ call.presense = false) ∨
  (call.pc = .returned ∧ call.result = some false)

/-- The branch for `u` with depth `k` is the root branch, or `u` is a link of
a page that a branch with depth `k + 1` fetched with success. -/
def Origin (fetcher : Fetcher) (root : String) (d : Int) (s : State) (u : String) (k : Int) :
    Prop :=
  (u = root ∧ k = d) ∨
    ∃ p body urls, Event.fetch p (k + 1) ∈ s.out ∧ fetcher p = .ok (body, urls) ∧ u ∈ urls

/-- The frame invariant behind `Origin`: the links a frame still holds are
links of a page its branch fetched with success. -/
def Frame.fromFetch (fetcher : Fetcher) (root : String) (d : Int) (s : State) : Frame → Prop
  | .entry u k => Origin fetcher root d s u k
  | .visiting call k => Origin fetcher root d s call.url k
  | .claimed u k => Origin fetcher root d s u k
  | .ranging urls k =>
    ∃ p body all, Event.fetch p k ∈ s.out ∧ fetcher p = .ok (body, all) ∧ ∀ v ∈ urls, v ∈ all
  | .registered u rest k =>
    ∃ p body all, Event.fetch p k ∈ s.out ∧ fetcher p = .ok (body, all) ∧
      ∀ v ∈ u :: rest, v ∈ all
  | .returning => True

/-- The number of calls of `Fetch` on `u` that a frame can still lead to
directly: one for a branch for `u` that has not returned, and one for each
time `u` stands among the links a loop has yet to start with positive depth. -/
def Frame.tickets (u : String) : Frame → Nat
  | .entry v k => if v = u ∧ 0 < k then 1 else 0
  | .visiting call _ => if call.url = u then 1 else 0
  | .claimed v _ => if v = u then 1 else 0
  | .ranging urls k => if 1 < k then urls.count u else 0
  | .registered w rest k => if 1 < k then (w :: rest).count u else 0
  | .returning => 0

/-- The number of branches for `u` with positive depth that a call of `Fetch`
gives rise to: the times `u` stands among the links of the page, when the
calling branch has depth at least 2. -/
def Event.grants (fetcher : Fetcher) (u : String) : Event → Nat
  | .fetch p k => if 2 ≤ k then (links fetcher p).count u else 0
  | _ => 0

/-- The number of branches for `u` with positive depth started so far, the
root branch included. -/
def started (fetcher : Fetcher) (root : String) (d : Int) (u : String) (out : List Event) :
    Nat :=
  (if u = root ∧ 0 < d then 1 else 0) + (out.map (Event.grants fetcher u)).sum

/-! ## Termination measure -/

/-- An upper bound on the steps of a branch for `u` with `n` levels left,
its descendants included. -/
def cost (fetcher : Fetcher) : Nat → String → Nat
  | 0, _ => 2
  | n + 1, u =>
    6 + match fetcher u with
        | .error _ => 1
        | .ok (_, urls) => 2 + (urls.map (fun v => 2 + cost fetcher n v)).sum

/-- An upper bound on the steps of the loop of line 51 over `urls`, the
branches it starts (with `n` levels left) included. -/
def fan (fetcher : Fetcher) (n : Nat) (urls : List String) : Nat :=
  2 + (urls.map (fun v => 2 + cost fetcher n v)).sum

/-- An upper bound on the steps from the call of `Fetch` on `u` on, the
branches started (with `n` levels left) included. -/
def fetchCost (fetcher : Fetcher) (n : Nat) (u : String) : Nat :=
  1 + match fetcher u with
      | .error _ => 1
      | .ok (_, urls) => fan fetcher n urls

/-- An upper bound on the steps left for a frame and the branches it starts. -/
def Frame.weight (fetcher : Fetcher) : Frame → Nat
  | .entry u d => cost fetcher d.toNat u
  | .visiting call d => call.left + 1 + fetchCost fetcher (d.toNat - 1) call.url
  | .claimed u d => fetchCost fetcher (d.toNat - 1) u
  | .ranging urls d => fan fetcher (d.toNat - 1) urls
  | .registered u rest d => 1 + fan fetcher (d.toNat - 1) rest + cost fetcher (d.toNat - 1) u
  | .returning => 1

/-- An upper bound on the steps left in a state. -/
def weight (fetcher : Fetcher) (s : State) : Nat := (s.frames.map (Frame.weight fetcher)).sum

/-! ## The cases of a step -/

/-- The steps of the crawl, one case for each statement and each outcome of
its test; `step_sound` shows that `step` takes only these. -/
inductive Step (fetcher : Fetcher) : State → State → Prop where
  | exhausted (c : SafeCounter) (pre post : List Frame) (out : List Event) (u : String)
      (d : Int) : d ≤ 0 →
      Step fetcher ⟨c, pre ++ .entry u d :: post, out⟩ ⟨c, pre ++ .returning :: post, out⟩
  | call (c : SafeCounter) (pre post : List Frame) (out : List Event) (u : String)
      (d : Int) : 0 < d →
      Step fetcher ⟨c, pre ++ .entry u d :: post, out⟩
        ⟨c, pre ++ .visiting (VisitCall.enter c u) d :: post, out⟩
  | lock (c : SafeCounter) (pre post : List Frame) (out : List Event) (v : VisitCall)
      (d : Int) : v.pc = .lock → v.mux = false →
      Step fetcher ⟨c, pre ++ .visiting v d :: post, out⟩
        ⟨c, pre ++ .visiting { v with mux := true, pc := .lookup } d :: post, out⟩
  | lookup (c : SafeCounter) (pre post : List Frame) (out : List Event) (v : VisitCall)
      (d : Int) : v.pc = .lookup →
      Step fetcher ⟨c, pre ++ .visiting v d :: post, out⟩
        ⟨c, pre ++ .visiting { v with presense := decide (v.url ∈ c.set), pc := .branch } d
          :: post, out⟩
  | insert (c : SafeCounter) (pre post : List Frame) (out : List Event) (v : VisitCall)
      (d : Int) : v.pc = .branch → v.presense = false →
      Step fetcher ⟨c, pre ++ .visiting v d :: post, out⟩
        ⟨{ c with set := c.set.insert v.url },
          pre ++ .visiting { v with mux := false, result := some false, pc := .returned } d
            :: post, out⟩
  | present (c : SafeCounter) (pre post : List Frame) (out : List Event) (v : VisitCall)
      (d : Int) : v.pc = .branch → v.presense = true →
      Step fetcher ⟨c, pre ++ .visiting v d :: post, out⟩
        ⟨c, pre ++ .visiting { v with mux := false, result := some true, pc := .returned } d
          :: post, out⟩
  | seen (c : SafeCounter) (pre post : List Frame) (out : List Event) (v : VisitCall)
      (d : Int) : v.pc = .returned → v.result = some true →
      Step fetcher ⟨c, pre ++ .visiting v d :: post, out⟩ ⟨c, pre ++ .returning :: post, out⟩
  | claim (c : SafeCounter) (pre post : List Frame) (out : List Event) (v : VisitCall)
      (d : Int) : v.pc = .returned → v.result ≠ some true →
      Step fetcher ⟨c, pre ++ .visiting v d :: post, out⟩
        ⟨c, pre ++ .claimed v.url d :: post, out⟩
  | fetchErr (c : SafeCounter) (pre post : List Frame) (out : List Event) (u : String)
      (d : Int) (err : String) : fetcher u = .error err →
      Step fetcher ⟨c, pre ++ .claimed u d :: post, out⟩
        ⟨c, pre ++ .returning :: post, out ++ [.fetch u d, .failed u err]⟩
  | fetchOk (c : SafeCounter) (pre post : List Frame) (out : List Event) (u : String)
      (d : Int) (body : String) (urls : List String) : fetcher u = .ok (body, urls) →
      Step fetcher ⟨c, pre ++ .claimed u d :: post, out⟩
        ⟨c, pre ++ .ranging urls d :: post, out ++ [.fetch u d, .found u body]⟩
  | loopEnd (c : SafeCounter) (pre post : List Frame) (out : List Event) (d : Int) :
      Step fetcher ⟨c, pre ++ .ranging [] d :: post, out⟩ ⟨c, pre ++ .returning :: post, out⟩
  | add (c : SafeCounter) (pre post : List Frame) (out : List Event) (v : String)
      (rest : List String) (d : Int) :
      Step fetcher ⟨c, pre ++ .ranging (v :: rest) d :: post, out⟩
        ⟨c.Add 1, pre ++ .registered v rest d :: post, out⟩
  | go (c : SafeCounter) (pre post : List Frame) (out : List Event) (v : String)
      (rest : List String) (d : Int) :
      Step fetcher ⟨c, pre ++ .registered v rest d :: post, out⟩
        ⟨c, pre ++ .ranging rest d :: .entry v (d - 1) :: post, out⟩
  | done (c : SafeCounter) (pre post : List Frame) (out : List Event) :
      Step fetcher ⟨c, pre ++ .returning :: post, out⟩ ⟨c.Done, pre ++ post, out⟩

/-! ## Calls of visited on their own -/

/-- The shared map and the activations of `visited` running on it. -/
structure Race where
  set : List String
  calls : List VisitCall
  deriving DecidableEq, Repr

/-- Calls of `visited` started at the same time on the counter `sc`. -/
def Race.enter (sc : SafeCounter) (urls : List String) : Race :=
  { set := sc.set, calls := urls.map (VisitCall.enter sc) }

/-- The activation at position `i` runs its next statement. -/
def Race.step (r : Race) (i : Nat) : Option Race :=
  match r.calls[i]? with
  | none => none
  | some c =>
    match c.next r.set with
    | none => none
    | some (set, c1) => some { set := set, calls := r.calls.set i c1 }

/-- The statements of a schedule, one after the other. -/
def Race.exec : Race → List Nat → Option Race
  | r, [] => some r
  | r, i :: sched => (Race.step r i).bind (fun r1 => Race.exec r1 sched)

/-- The values returned so far by the activations. -/
def Race.results (r : Race) : List (Option Bool) := r.calls.map (fun c => c.result)

/-! ## Scenarios -/

/-- The graph A -> [B, C], B -> [A], C -> []. -/
def abc : fakeFetcher :=
  [("A", ⟨"a", ["B", "C"]⟩), ("B", ⟨"b", ["A"]⟩), ("C", ⟨"c", []⟩)]

/-- The state reached from `startCrawl "A" 2` on `abc` after seven steps:
A is fetched, B is registered in the wait group, its goroutine not yet started. -/
def abcMid : State :=
  { counter := { set := ["A"], mux := false, wg := 2 }
    frames := [.registered "B" ["C"] 2]
    out := [.fetch "A" 2, .found "A" "a"] }

/-- The graph A -> [B], B -> []. -/
def chain : fakeFetcher := [("A", ⟨"a", ["B"]⟩), ("B", ⟨"b", []⟩)]

/-- The state reached from `startCrawl "A" 1` on `chain` after its twelve steps. -/
def chainDone : State :=
  { counter := { set := ["A"], mux := false, wg := 0 }
    frames := []
    out := [.fetch "A" 1, .found "A" "a"] }

/-- The graph A -> [B, C], B -> [C], C -> [D], D -> []. -/
def diamond : fakeFetcher :=
  [("A", ⟨"a", ["B", "C"]⟩), ("B", ⟨"b", ["C"]⟩), ("C", ⟨"c", ["D"]⟩), ("D", ⟨"d", []⟩)]

/-- A schedule on `diamond` from `startCrawl "A" 3` in which the branch for C
started by B (depth 1) runs before the branch for C started by A (depth 2). -/
def diamondSched : List Nat :=
  List.replicate 12 0 ++ List.replicate 8 1 ++ List.replicate 8 2 ++ List.replicate 12 0

/-- The state reached on `diamond` by `diamondSched`. -/
def diamondDone : State :=
  { counter := { set := ["C", "B", "A"], mux := false, wg := 0 }
    frames := []
    out := [.fetch "A" 3, .found "A" "a", .fetch "B" 2, .found "B" "b",
            .fetch "C" 1, .found "C" "c"] }

/-- The graph P -> [X, Y], Y -> [], with no entry for X: `Fetch` fails on X. -/
def broken : fakeFetcher := [("P", ⟨"p", ["X", "Y"]⟩), ("Y", ⟨"y", []⟩)]

/-- The graph R -> [X, X], X -> []: the page R links to X twice. -/
def twice : fakeFetcher := [("R", ⟨"r", ["X", "X"]⟩), ("X", ⟨"x", []⟩)]

/-- A schedule on `twice` from `startCrawl "R" 2`: the root branch runs to its
end (12 steps), then each of the two branches for X enters `visited`, locks
its copy of the mutex and runs the lookup of line 25 (steps 0, 0, 0 and
1, 1, 1) before either inserts; the rest runs the first live frame. -/
def twiceSched : List Nat :=
  List.replicate 12 0 ++ [0, 0, 0, 1, 1, 1] ++ List.replicate 10 0

/-- The state reached on `twice` by `twiceSched`. -/
def twiceDone : State :=
  { counter := { set := ["X", "R"], mux := false, wg := 0 }
    frames := []
    out := [.fetch "R" 2, .found "R" "r", .fetch "X" 1, .found "X" "x",
            .fetch "X" 1, .found "X" "x"] }

/-- The graph P -> [X, Y, Y], Y -> [], with no entry for X. -/
def brokenTwice : fakeFetcher := [("P", ⟨"p", ["X", "Y", "Y"]⟩), ("Y", ⟨"y", []⟩)]

/-- A schedule on `brokenTwice` from `startCrawl "P" 2`: the root branch runs
to its end (14 steps), then each of the two branches for Y runs up to and
with the lookup of line 25 before either inserts; the rest runs the first
live frame. -/
def brokenTwiceSched : List Nat :=
  List.replicate 14 0 ++ [0, 0, 0, 1, 1, 1] ++ List.replicate 17 0

/-- The state reached on `brokenTwice` by `brokenTwiceSched`. -/
def brokenTwiceDone : State :=
  { counter := { set := ["X", "Y", "P"], mux := false, wg := 0 }
    frames := []
    out := [.fetch "P" 2, .found "P" "p", .fetch "Y" 1, .found "Y" "y",
            .fetch "Y" 1, .found "Y" "y", .fetch "X" 1, .failed "X" "not found: X"] }

/-- The state `main` reaches by `mainSched`: the root page is fetched, the
root branch is at the end of its loop, the branch for cmd has run its lookup
and is about to insert, the branch for pkg is about to look up. -/
def mainClash : State :=
  { counter := { set := ["https://golang.org/"], mux := false, wg := 3 }
    frames :=
      [.ranging [] 4,
       .visiting ⟨"https://golang.org/cmd/", true, .branch, false, none⟩ 3,
       .visiting ⟨"https://golang.org/pkg/", true, .lookup, false, none⟩ 3]
    out := [.fetch "https://golang.org/" 4,
            .found "https://golang.org/" "The Go Programming Language"] }

/-- A schedule of `main`: the root branch fetches and starts the branches for
pkg and cmd (10 steps); the branch for cmd runs up to and with its lookup,
so that its insertion comes next; the branch for pkg runs up to its lookup. -/
def mainSched : List Nat := List.replicate 10 0 ++ [1, 1, 1, 2, 2]

/-! ## Basic lemmas -/

theorem step_sound (fetcher : Fetcher) (s : State) (i : Nat) (s1 : State)
    (h : step fetcher s i = some s1) : Step fetcher s s1 := by
  obtain ⟨c, frames, out⟩ := s
  unfold step at h
  simp only at h
  cases hfr : frames[i]? with
  | none => simp [hfr] at h
  | some fr =>
    simp only [hfr] at h
    have hi : i < frames.length := by
      by_contra hcon
      have : frames[i]? = none := List.getElem?_eq_none (by omega)
      simp [this] at hfr
    have hget : frames[i] = fr := by
      have := List.getElem?_eq_getElem hi
      rw [this] at hfr
      exact Option.some.inj hfr
    have hsplit : frames = frames.take i ++ fr :: frames.drop (i + 1) := by
      rw [← hget, List.getElem_cons_drop frames i hi, List.take_append_drop]
    cases hn : Crawl.next fetcher c fr with
    | none => simp [hn] at h
    | some r =>
      obtain ⟨c1, frs, evs⟩ := r
      simp only [hn, Option.some.injEq] at h
      subst h
      generalize frames.take i = pre at hsplit ⊢
      generalize frames.drop (i + 1) = post at hsplit ⊢
      subst hsplit
      cases fr with
      | entry u d =>
        by_cases hd : d ≤ 0
        · simp only [Crawl.next, hd, if_true, Option.some.injEq, Prod.mk.injEq] at hn
          obtain ⟨rfl, rfl, rfl⟩ := hn
          simpa using Step.exhausted c pre post out u d hd
        · simp only [Crawl.next, hd, if_false, Option.some.injEq, Prod.mk.injEq] at hn
          obtain ⟨rfl, rfl, rfl⟩ := hn
          simpa using Step.call c pre post out u d (by omega)
      | visiting v d =>
        cases hpc : v.pc with
        | lock =>
          by_cases hm : v.mux = true
          · simp [Crawl.next, hpc, VisitCall.next, hm] at hn
          · have hm1 : v.mux = false := by simpa using hm
            simp only [Crawl.next, hpc, VisitCall.next, hm1, Bool.false_eq_true, if_false,
              Option.some.injEq, Prod.mk.injEq] at hn
            obtain ⟨rfl, rfl, rfl⟩ := hn
            simpa using Step.lock c pre post out v d hpc hm1
        | lookup =>
          simp only [Crawl.next, hpc, VisitCall.next, Option.some.injEq, Prod.mk.injEq] at hn
          obtain ⟨rfl, rfl, rfl⟩ := hn
          simpa using Step.lookup c pre post out v d hpc
        | branch =>
          by_cases hp : v.presense = true
          · simp only [Crawl.next, hpc, VisitCall.next, hp, Bool.not_true, Bool.false_eq_true,
              if_false, Option.some.injEq, Prod.mk.injEq] at hn
            obtain ⟨rfl, rfl, rfl⟩ := hn
            simpa [hp] using Step.present c pre post out v d hpc hp
          · have hp1 : v.presense = false := by simpa using hp
            simp only [Crawl.next, hpc, VisitCall.next, hp1, Bool.not_false, if_true,
              Option.some.injEq, Prod.mk.injEq] at hn
            obtain ⟨rfl, rfl, rfl⟩ := hn
            simpa [hp1] using Step.insert c pre post out v d hpc hp1
        | returned =>
          by_cases hr : v.result = some true
          · simp only [Crawl.next, hpc, hr, if_true, Option.some.injEq, Prod.mk.injEq] at hn
            obtain ⟨rfl, rfl, rfl⟩ := hn
            simpa using Step.seen c pre post out v d hpc hr
          · simp only [Crawl.next, hpc, hr, if_false, Option.some.injEq, Prod.mk.injEq] at hn
            obtain ⟨rfl, rfl, rfl⟩ := hn
            simpa using Step.claim c pre post out v d hpc hr
      | claimed u d =>
        cases hf : fetcher u with
        | error err =>
          simp only [Crawl.next, hf, Option.some.injEq, Prod.mk.injEq] at hn
          obtain ⟨rfl, rfl, rfl⟩ := hn
          simpa using Step.fetchErr c pre post out u d err hf
        | ok r =>
          obtain ⟨body, urls⟩ := r
          simp only [Crawl.next, hf, Option.some.injEq, Prod.mk.injEq] at hn
          obtain ⟨rfl, rfl, rfl⟩ := hn
          simpa using Step.fetchOk c pre post out u d body urls hf
      | ranging urls d =>
        cases urls with
        | nil =>
          simp only [Crawl.next, Option.some.injEq, Prod.mk.injEq] at hn
          obtain ⟨rfl, rfl, rfl⟩ := hn
          simpa using Step.loopEnd c pre post out d
        | cons v rest =>
          simp only [Crawl.next, Option.some.injEq, Prod.mk.injEq] at hn
          obtain ⟨rfl, rfl, rfl⟩ := hn
          simpa using Step.add c pre post out v rest d
      | registered v rest d =>
        simp only [Crawl.next, Option.some.injEq, Prod.mk.injEq] at hn
        obtain ⟨rfl, rfl, rfl⟩ := hn
        simpa using Step.go c pre post out v rest d
      | returning =>
        simp only [Crawl.next, Option.some.injEq, Prod.mk.injEq] at hn
        obtain ⟨rfl, rfl, rfl⟩ := hn
        simpa using Step.done c pre post out

theorem exec_invariant_step (fetcher : Fetcher) (P : State → Prop)
    (hP : ∀ s i s1, P s → step fetcher s i = some s1 → P s1) :
    ∀ (sched : List Nat) (s s1 : State), P s → exec fetcher s sched = some s1 → P s1 := by
  intro sched
  induction sched with
  | nil =>
    intro s s1 hs h
    simp only [exec, Option.some.injEq] at h
    exact h ▸ hs
  | cons i sched ih =>
    intro s s1 hs h
    simp only [exec] at h
    cases hst : step fetcher s i with
    | none => simp [hst] at h
    | some s2 =>
      simp only [hst, Option.some_bind] at h
      exact ih s2 s1 (hP s i s2 hs hst) h

theorem exec_invariant (fetcher : Fetcher) (P : State → Prop)
    (hP : ∀ s s1, P s → Step fetcher s s1 → P s1) :
    ∀ (sched : List Nat) (s s1 : State), P s → exec fetcher s sched = some s1 → P s1 :=
  exec_invariant_step fetcher P
    (fun s i s1 hs hst => hP s s1 hs (step_sound fetcher s i s1 hst))

theorem Step.wg_eq {fetcher : Fetcher} {s s1 : State} (hs : s.counter.wg = outstanding s)
    (h : Step fetcher s s1) : s1.counter.wg = outstanding s1 := by
  cases h <;>
    simp [outstanding, Frame.units, SafeCounter.Add, SafeCounter.Done] at hs ⊢ <;> omega

theorem cost_pos (fetcher : Fetcher) (n : Nat) (u : String) : 2 ≤ cost fetcher n u := by
  cases n with
  | zero => simp [cost]
  | succ n =>
    simp only [cost]
    omega

theorem cost_succ (fetcher : Fetcher) (n : Nat) (u : String) :
    cost fetcher (n + 1) u = 5 + fetchCost fetcher n u := by
  simp only [cost, fetchCost, fan]
  cases fetcher u with
  | error e => rfl
  | ok r => simp only; omega

theorem fetchCost_pos (fetcher : Fetcher) (n : Nat) (u : String) :
    2 ≤ fetchCost fetcher n u := by
  simp only [fetchCost, fan]
  cases fetcher u with
  | error e => simp
  | ok r =>
    show 2 ≤ 1 + (2 + _)
    omega

theorem Step.weight_lt {fetcher : Fetcher} {s s1 : State} (h : Step fetcher s s1) :
    weight fetcher s1 < weight fetcher s := by
  cases h with
  | exhausted c pre post out u d hd =>
    have := cost_pos fetcher d.toNat u
    simp [weight, Frame.weight]
    omega
  | call c pre post out u d hd =>
    obtain ⟨m, hm⟩ : ∃ m, d.toNat = m + 1 := ⟨d.toNat - 1, by omega⟩
    simp [weight, Frame.weight, hm, cost_succ, VisitCall.left, VisitCall.enter]
  | lock c pre post out v d hpc hm =>
    simp [weight, Frame.weight, VisitCall.left, hpc]
  | lookup c pre post out v d hpc =>
    simp [weight, Frame.weight, VisitCall.left, hpc]
  | insert c pre post out v d hpc hp =>
    simp [weight, Frame.weight, VisitCall.left, hpc]
  | present c pre post out v d hpc hp =>
    simp [weight, Frame.weight, VisitCall.left, hpc]
  | seen c pre post out v d hpc hr =>
    have := fetchCost_pos fetcher (d.toNat - 1) v.url
    simp [weight, Frame.weight, VisitCall.left, hpc]
    omega
  | claim c pre post out v d hpc hr =>
    simp [weight, Frame.weight, VisitCall.left, hpc]
  | fetchErr c pre post out u d err hf =>
    simp [weight, Frame.weight, fetchCost, hf]
  | fetchOk c pre post out u d body urls hf =>
    simp [weight, Frame.weight, fetchCost, hf]
  | loopEnd c pre post out d =>
    simp [weight, Frame.weight, fan]
  | add c pre post out v rest d =>
    simp [weight, Frame.weight, fan]
    omega
  | go c pre post out v rest d =>
    have hd : (d - 1).toNat = d.toNat - 1 := by omega
    simp [weight, Frame.weight, fan, hd]
    omega
  | done c pre post out =>
    simp [weight, Frame.weight]

theorem exec_length_le (fetcher : Fetcher) :
    ∀ (sched : List Nat) (s s1 : State), exec fetcher s sched = some s1 →
      sched.length + weight fetcher s1 ≤ weight fetcher s := by
  intro sched
  induction sched with
  | nil =>
    intro s s1 h
    simp only [exec, Option.some.injEq] at h
    simp [h]
  | cons i sched ih =>
    intro s s1 h
    simp only [exec] at h
    cases hst : step fetcher s i with
    | none => simp [hst] at h
    | some s2 =>
      simp only [hst, Option.some_bind] at h
      have h1 := ih s2 s1 h
      have h2 := Step.weight_lt (step_sound fetcher s i s2 hst)
      simp only [List.length_cons]
      omega

theorem exec_append (fetcher : Fetcher) :
    ∀ (a b : List Nat) (s s1 : State), exec fetcher s a = some s1 →
      exec fetcher s (a ++ b) = exec fetcher s1 b := by
  intro a
  induction a with
  | nil =>
    intro b s s1 h
    simp only [exec, Option.some.injEq] at h
    simp [h]
  | cons i a ih =>
    intro b s s1 h
    simp only [exec, List.cons_append] at h ⊢
    cases hst : step fetcher s i with
    | none => simp [hst] at h
    | some s2 =>
      simp only [hst, Option.some_bind] at h ⊢
      exact ih b s2 s1 h

theorem forall_mem_splice {α : Type} {P : α → Prop} {pre post : List α} {x : α} :
    (∀ a ∈ pre ++ x :: post, P a) ↔ (∀ a ∈ pre, P a) ∧ P x ∧ ∀ a ∈ post, P a := by
  simp only [List.mem_append, List.mem_cons]
  constructor
  · intro h
    exact ⟨fun a ha => h a (Or.inl ha), h x (Or.inr (Or.inl rfl)),
      fun a ha => h a (Or.inr (Or.inr ha))⟩
  · rintro ⟨h1, h2, h3⟩ a (ha | rfl | ha)
    · exact h1 a ha
    · exact h2
    · exact h3 a ha

theorem exists_mem_splice {α : Type} {P : α → Prop} {pre post : List α} {x : α} :
    (∃ a ∈ pre ++ x :: post, P a) ↔ (∃ a ∈ pre, P a) ∨ P x ∨ ∃ a ∈ post, P a := by
  simp only [List.mem_append, List.mem_cons]
  constructor
  · rintro ⟨a, (ha | rfl | ha), hp⟩
    · exact Or.inl ⟨a, ha, hp⟩
    · exact Or.inr (Or.inl hp)
    · exact Or.inr (Or.inr ⟨a, ha, hp⟩)
  · rintro (⟨a, ha, hp⟩ | hp | ⟨a, ha, hp⟩)
    · exact ⟨a, Or.inl ha, hp⟩
    · exact ⟨x, Or.inr (Or.inl rfl), hp⟩
    · exact ⟨a, Or.inr (Or.inr ha), hp⟩

theorem forall_splice_replace {α : Type} {P : α → Prop} {pre post : List α} {x y : α}
    (h : ∀ a ∈ pre ++ x :: post, P a) (hy : P y) : ∀ a ∈ pre ++ y :: post, P a := by
  obtain ⟨h1, -, h3⟩ := forall_mem_splice.mp h
  exact forall_mem_splice.mpr ⟨h1, hy, h3⟩

theorem Step.live {fetcher : Fetcher} {s s1 : State}
    (hs : s.counter.mux = false ∧ ∀ fr ∈ s.frames, fr.canLock)
    (h : Step fetcher s s1) : s1.counter.mux = false ∧ ∀ fr ∈ s1.frames, fr.canLock := by
  obtain ⟨hmux, hfr⟩ := hs
  cases h with
  | call c pre post out u d hd =>
    exact ⟨hmux, forall_splice_replace hfr (fun _ => hmux)⟩
  | lock c pre post out v d hpc hm =>
    exact ⟨hmux, forall_splice_replace hfr (fun hcon => by cases hcon)⟩
  | lookup c pre post out v d hpc =>
    exact ⟨hmux, forall_splice_replace hfr (fun hcon => by cases hcon)⟩
  | insert c pre post out v d hpc hp =>
    exact ⟨hmux, forall_splice_replace hfr (fun hcon => by cases hcon)⟩
  | present c pre post out v d hpc hp =>
    exact ⟨hmux, forall_splice_replace hfr (fun hcon => by cases hcon)⟩
  | go c pre post out v rest d =>
    obtain ⟨h1, -, h3⟩ := forall_mem_splice.mp hfr
    exact ⟨hmux, forall_mem_splice.mpr ⟨h1, trivial, List.forall_mem_cons.mpr ⟨trivial, h3⟩⟩⟩
  | done c pre post out =>
    obtain ⟨h1, -, h3⟩ := forall_mem_splice.mp hfr
    exact ⟨hmux, List.forall_mem_append.mpr ⟨h1, h3⟩⟩
  | _ => exact ⟨hmux, forall_splice_replace hfr trivial⟩

theorem step_live (fetcher : Fetcher) (s : State)
    (hs : s.counter.mux = false ∧ ∀ fr ∈ s.frames, fr.canLock) (i : Nat)
    (hi : i < s.frames.length) : (step fetcher s i).isSome = true := by
  have hmem : s.frames[i] ∈ s.frames := List.getElem_mem hi
  have hcan := hs.2 _ hmem
  unfold step
  rw [List.getElem?_eq_getElem hi]
  generalize s.frames[i] = fr at hcan
  cases fr with
  | entry u d =>
    by_cases hd : d ≤ 0 <;> simp [Crawl.next, hd]
  | visiting v d =>
    cases hpc : v.pc with
    | lock =>
      have hm : v.mux = false := hcan hpc
      simp [Crawl.next, hpc, VisitCall.next, hm]
    | lookup => simp [Crawl.next, hpc, VisitCall.next]
    | branch =>
      by_cases hp : v.presense = true <;> simp [Crawl.next, hpc, VisitCall.next, hp]
    | returned =>
      by_cases hr : v.result = some true <;> simp [Crawl.next, hpc, hr]
  | claimed u d =>
    cases hf : fetcher u with
    | error err => simp [Crawl.next, hf]
    | ok r => simp [Crawl.next, hf]
  | ranging urls d =>
    cases urls <;> simp [Crawl.next]
  | registered v rest d => simp [Crawl.next]
  | returning => simp [Crawl.next]

theorem exists_complete (fetcher : Fetcher) :
    ∀ (n : Nat) (s : State), (s.counter.mux = false ∧ ∀ fr ∈ s.frames, fr.canLock) →
      weight fetcher s ≤ n → ∃ sched s1, exec fetcher s sched = some s1 ∧ s1.frames = [] := by
  intro n
  induction n with
  | zero =>
    intro s hl hs
    refine ⟨[], s, rfl, ?_⟩
    cases hfr : s.frames with
    | nil => rfl
    | cons fr rest =>
      have hlive := step_live fetcher s hl 0 (by simp [hfr])
      obtain ⟨s2, hs2⟩ := Option.isSome_iff_exists.mp hlive
      have := Step.weight_lt (step_sound fetcher s 0 s2 hs2)
      omega
  | succ n ih =>
    intro s hl hs
    cases hfr : s.frames with
    | nil => exact ⟨[], s, rfl, hfr⟩
    | cons fr rest =>
      have hlive := step_live fetcher s hl 0 (by simp [hfr])
      obtain ⟨s2, hs2⟩ := Option.isSome_iff_exists.mp hlive
      have hst := step_sound fetcher s 0 s2 hs2
      have hlt := Step.weight_lt hst
      obtain ⟨sched, s1, hex, hdone⟩ := ih s2 (Step.live hl hst) (by omega)
      exact ⟨0 :: sched, s1, by simp [exec, hs2, hex], hdone⟩

theorem reach_live {fetcher : Fetcher} {root : String} {d : Int} {sched : List Nat} {s : State}
    (h : exec fetcher (startCrawl root d) sched = some s) :
    s.counter.mux = false ∧ ∀ fr ∈ s.frames, fr.canLock := by
  refine exec_invariant fetcher
    (fun s => s.counter.mux = false ∧ ∀ fr ∈ s.frames, fr.canLock)
    (fun _ _ hs hst => Step.live hs hst) sched _ s ?_ h
  refine ⟨rfl, ?_⟩
  intro fr hfr
  simp only [startCrawl, List.mem_singleton] at hfr
  subst hfr
  trivial

theorem onPath_link {fetcher : Fetcher} {root : String} {d : Int} {u : String} {k : Int}
    {body : String} {urls : List String} (h : OnPath fetcher root d u k)
    (hf : fetcher u = .ok (body, urls)) (v : String) (hv : v ∈ urls) :
    OnPath fetcher root d v (k - 1) := by
  obtain ⟨n, hn, hmem⟩ := h
  refine ⟨n + 1, by push_cast; omega, ?_⟩
  simp only [level, List.mem_flatMap]
  exact ⟨u, hmem, by simp [links, hf, hv]⟩

theorem mem_out_pair {out : List Event} {a b : Event} {u : String} {k : Int}
    (h : Event.fetch u k ∈ out ++ [a, b]) :
    Event.fetch u k ∈ out ∨ Event.fetch u k = a ∨ Event.fetch u k = b := by
  simpa [List.mem_append] using h

theorem Step.depth {fetcher : Fetcher} {root : String} {d : Int} {s s1 : State}
    (hs : (∀ fr ∈ s.frames, fr.onPath fetcher root d) ∧
      ∀ u k, Event.fetch u k ∈ s.out → 0 < k ∧ OnPath fetcher root d u k)
    (h : Step fetcher s s1) :
    (∀ fr ∈ s1.frames, fr.onPath fetcher root d) ∧
      ∀ u k, Event.fetch u k ∈ s1.out → 0 < k ∧ OnPath fetcher root d u k := by
  obtain ⟨hfr, hev⟩ := hs
  cases h with
  | exhausted c pre post out u k hk => exact ⟨forall_splice_replace hfr trivial, hev⟩
  | call c pre post out u k hk =>
    obtain ⟨hpre, hp, hpost⟩ := forall_mem_splice.mp hfr
    exact ⟨forall_mem_splice.mpr ⟨hpre, ⟨hk, hp⟩, hpost⟩, hev⟩
  | lock c pre post out v k hpc hm =>
    obtain ⟨hpre, hp, hpost⟩ := forall_mem_splice.mp hfr
    exact ⟨forall_mem_splice.mpr ⟨hpre, hp, hpost⟩, hev⟩
  | lookup c pre post out v k hpc =>
    obtain ⟨hpre, hp, hpost⟩ := forall_mem_splice.mp hfr
    exact ⟨forall_mem_splice.mpr ⟨hpre, hp, hpost⟩, hev⟩
  | insert c pre post out v k hpc hp1 =>
    obtain ⟨hpre, hp, hpost⟩ := forall_mem_splice.mp hfr
    exact ⟨forall_mem_splice.mpr ⟨hpre, hp, hpost⟩, hev⟩
  | present c pre post out v k hpc hp1 =>
    obtain ⟨hpre, hp, hpost⟩ := forall_mem_splice.mp hfr
    exact ⟨forall_mem_splice.mpr ⟨hpre, hp, hpost⟩, hev⟩
  | seen c pre post out v k hpc hr => exact ⟨forall_splice_replace hfr trivial, hev⟩
  | claim c pre post out v k hpc hr =>
    obtain ⟨hpre, hp, hpost⟩ := forall_mem_splice.mp hfr
    exact ⟨forall_mem_splice.mpr ⟨hpre, hp, hpost⟩, hev⟩
  | fetchErr c pre post out u k err hf =>
    obtain ⟨hpre, hp, hpost⟩ := forall_mem_splice.mp hfr
    refine ⟨forall_mem_splice.mpr ⟨hpre, trivial, hpost⟩, ?_⟩
    intro w j hw
    rcases mem_out_pair hw with hw | hw | hw
    · exact hev w j hw
    · cases hw
      exact hp
    · cases hw
  | fetchOk c pre post out u k body urls hf =>
    obtain ⟨hpre, hp, hpost⟩ := forall_mem_splice.mp hfr
    refine ⟨forall_mem_splice.mpr ⟨hpre, onPath_link hp.2 hf, hpost⟩, ?_⟩
    intro w j hw
    rcases mem_out_pair hw with hw | hw | hw
    · exact hev w j hw
    · cases hw
      exact hp
    · cases hw
  | loopEnd c pre post out k => exact ⟨forall_splice_replace hfr trivial, hev⟩
  | add c pre post out v rest k =>
    obtain ⟨hpre, hp, hpost⟩ := forall_mem_splice.mp hfr
    exact ⟨forall_mem_splice.mpr
      ⟨hpre, ⟨hp v (List.mem_cons_self v rest), fun w hw => hp w (List.mem_cons_of_mem v hw)⟩,
        hpost⟩, hev⟩
  | go c pre post out v rest k =>
    obtain ⟨hpre, hp, hpost⟩ := forall_mem_splice.mp hfr
    exact ⟨forall_mem_splice.mpr ⟨hpre, hp.2, List.forall_mem_cons.mpr ⟨hp.1, hpost⟩⟩, hev⟩
  | done c pre post out =>
    obtain ⟨hpre, -, hpost⟩ := forall_mem_splice.mp hfr
    exact ⟨List.forall_mem_append.mpr ⟨hpre, hpost⟩, hev⟩

theorem Step.set_mono {fetcher : Fetcher} {s s1 : State} (h : Step fetcher s s1) (v : String)
    (hv : v ∈ s.counter.set) : v ∈ s1.counter.set := by
  cases h with
  | insert c pre post out w k hpc hp => exact List.mem_insert_of_mem hv
  | _ => exact hv

theorem Step.out_mono {fetcher : Fetcher} {s s1 : State} (h : Step fetcher s s1) (e : Event)
    (he : e ∈ s.out) : e ∈ s1.out := by
  cases h <;> first | exact he | exact List.mem_append_left _ he

theorem pending_keep (c c1 : SafeCounter) (pre post : List Frame) (out out1 : List Event)
    (x : Frame) (ys : List Frame) (v : String)
    (hset : ∀ w ∈ c.set, w ∈ c1.set)
    (hx : x.carries v → v ∈ c1.set ∨ ∃ fr ∈ ys, fr.carries v)
    (hv : Pending ⟨c, pre ++ x :: post, out⟩ v) : Pending ⟨c1, pre ++ ys ++ post, out1⟩ v := by
  rcases hv with hv | hv
  · exact Or.inl (hset v hv)
  · rcases exists_mem_splice.mp hv with ⟨fr, hfr, hc⟩ | hc | ⟨fr, hfr, hc⟩
    · exact Or.inr ⟨fr, by simp [hfr], hc⟩
    · rcases hx hc with h1 | ⟨fr, hfr, hc1⟩
      · exact Or.inl h1
      · exact Or.inr ⟨fr, by simp [hfr], hc1⟩
    · exact Or.inr ⟨fr, by simp [hfr], hc⟩

theorem Step.pending {fetcher : Fetcher} {s s1 : State} (h : Step fetcher s s1) (v : String)
    (hv : Pending s v) : Pending s1 v := by
  cases h with
  | exhausted c pre post out u k hk =>
    have := pending_keep
        c c pre post out out (.entry u k) [.returning] v
        (fun _ h => h)
      (fun hc => absurd hc.2 (by omega)) hv
    simpa using this
  | call c pre post out u k hk =>
    have := pending_keep
        c c pre post out out (.entry u k) ([.visiting (VisitCall.enter c u) k]) v
        (fun _ h => h)
      (fun hc => Or.inr ⟨_, List.mem_singleton_self _,
        ⟨hc.1, hc.2, by simp [VisitCall.enter], by simp [VisitCall.enter]⟩⟩) hv
    simpa using this
  | lock c pre post out w k hpc hm =>
    have := pending_keep
        c c pre post out out (.visiting w k)
        [.visiting { w with mux := true, pc := .lookup } k] v
        (fun _ h => h)
      (fun hc => Or.inr ⟨_, List.mem_singleton_self _, ⟨hc.1, hc.2.1, by simp, by simp⟩⟩) hv
    simpa using this
  | lookup c pre post out w k hpc =>
    have := pending_keep
        c c pre post out out (.visiting w k)
        ([.visiting { w with presense := decide (w.url ∈ c.set), pc := .branch } k]) v
        (fun _ h => h)
      (fun hc => by
        by_cases hin : w.url ∈ c.set
        · exact Or.inl (hc.1 ▸ hin)
        · exact Or.inr ⟨_, List.mem_singleton_self _, ⟨hc.1, hc.2.1, by simp, by simp [hin]⟩⟩)
      hv
    simpa using this
  | insert c pre post out w k hpc hp =>
    have := pending_keep
        c ({ c with set := c.set.insert w.url }) pre post out out (.visiting w k)
        [.visiting { w with mux := false, result := some false, pc := .returned } k] v
        (fun _ h => List.mem_insert_of_mem h)
      (fun hc => Or.inl (hc.1 ▸ List.mem_insert_self _ _)) hv
    simpa using this
  | present c pre post out w k hpc hp =>
    have := pending_keep
        c c pre post out out (.visiting w k)
        [.visiting { w with mux := false, result := some true, pc := .returned } k] v
        (fun _ h => h)
      (fun hc => by have := hc.2.2.2 hpc; rw [hp] at this; cases this) hv
    simpa using this
  | seen c pre post out w k hpc hr =>
    have := pending_keep
        c c pre post out out (.visiting w k) [.returning] v
        (fun _ h => h)
      (fun hc => absurd hpc hc.2.2.1) hv
    simpa using this
  | claim c pre post out w k hpc hr =>
    have := pending_keep
        c c pre post out out (.visiting w k) [.claimed w.url k] v
        (fun _ h => h)
      (fun hc => absurd hpc hc.2.2.1) hv
    simpa using this
  | fetchErr c pre post out u k err hf =>
    have := pending_keep
        c c pre post out (out ++ [.fetch u k, .failed u err]) (.claimed u k) [.returning] v
        (fun _ h => h) (fun hc => hc.elim) hv
    simpa using this
  | fetchOk c pre post out u k body urls hf =>
    have := pending_keep
        c c pre post out (out ++ [.fetch u k, .found u body]) (.claimed u k)
        [.ranging urls k] v
        (fun _ h => h) (fun hc => hc.elim) hv
    simpa using this
  | loopEnd c pre post out k =>
    have := pending_keep
        c c pre post out out (.ranging [] k) [.returning] v
        (fun _ h => h)
      (fun hc => absurd hc.1 (List.not_mem_nil v)) hv
    simpa using this
  | add c pre post out w rest k =>
    have := pending_keep
        c (c.Add 1) pre post out out (.ranging (w :: rest) k) [.registered w rest k] v
        (fun _ h => h)
      (fun hc => Or.inr ⟨_, List.mem_singleton_self _, by
        refine ⟨?_, hc.2⟩
        rcases List.mem_cons.mp hc.1 with h1 | h1
        · exact Or.inl h1.symm
        · exact Or.inr h1⟩) hv
    simpa using this
  | go c pre post out w rest k =>
    have := pending_keep
        c c pre post out out (.registered w rest k) ([.ranging rest k, .entry w (k - 1)]) v
        (fun _ h => h)
      (fun hc => by
        rcases hc.1 with h1 | h1
        · exact Or.inr ⟨.entry w (k - 1), by simp, h1, by have := hc.2; omega⟩
        · exact Or.inr ⟨.ranging rest k, by simp, h1, hc.2⟩) hv
    simpa using this
  | done c pre post out =>
    have := pending_keep
        c c.Done pre post out out .returning [] v
        (fun _ h => h)
      (fun hc => hc.elim) hv
    simpa using this

theorem Step.fan {fetcher : Fetcher} {s s1 : State}
    (hs : ∀ u k body urls, Event.fetch u k ∈ s.out → fetcher u = .ok (body, urls) → 2 ≤ k →
      ∀ v ∈ urls, Pending s v)
    (h : Step fetcher s s1) :
    ∀ u k body urls, Event.fetch u k ∈ s1.out → fetcher u = .ok (body, urls) → 2 ≤ k →
      ∀ v ∈ urls, Pending s1 v := by
  intro w j body urls hw hf hj v hv
  by_cases hold : Event.fetch w j ∈ s.out
  · exact h.pending v (hs w j body urls hold hf hj v hv)
  · cases h with
    | fetchErr c pre post out u k err hfu =>
      rcases mem_out_pair hw with hw | hw | hw
      · exact absurd hw hold
      · cases hw
        rw [hfu] at hf
        cases hf
      · cases hw
    | fetchOk c pre post out u k body1 urls1 hfu =>
      rcases mem_out_pair hw with hw | hw | hw
      · exact absurd hw hold
      · cases hw
        rw [hfu] at hf
        cases hf
        exact Or.inr (exists_mem_splice.mpr (Or.inr (Or.inl ⟨hv, by omega⟩)))
      · cases hw
    | _ => exact absurd hw hold

theorem claimer_keep (pre post : List Frame) (out out1 : List Event) (x : Frame)
    (ys : List Frame) (v : String) (hout : ∀ e ∈ out, e ∈ out1)
    (hx : x.claimer v → (∃ k, Event.fetch v k ∈ out1) ∨ ∃ fr ∈ ys, fr.claimer v)
    (h : (∃ k, Event.fetch v k ∈ out) ∨ ∃ fr ∈ pre ++ x :: post, fr.claimer v) :
    (∃ k, Event.fetch v k ∈ out1) ∨ ∃ fr ∈ pre ++ ys ++ post, fr.claimer v := by
  rcases h with ⟨k, hk⟩ | h
  · exact Or.inl ⟨k, hout _ hk⟩
  · rcases exists_mem_splice.mp h with ⟨fr, hfr, hc⟩ | hc | ⟨fr, hfr, hc⟩
    · exact Or.inr ⟨fr, by simp [hfr], hc⟩
    · rcases hx hc with h1 | ⟨fr, hfr, hc1⟩
      · exact Or.inl h1
      · exact Or.inr ⟨fr, by simp [hfr], hc1⟩
    · exact Or.inr ⟨fr, by simp [hfr], hc⟩

theorem Step.claimers {fetcher : Fetcher} {s s1 : State}
    (hs : ∀ v ∈ s.counter.set, (∃ k, Event.fetch v k ∈ s.out) ∨ ∃ fr ∈ s.frames, fr.claimer v)
    (h : Step fetcher s s1) :
    ∀ v ∈ s1.counter.set,
      (∃ k, Event.fetch v k ∈ s1.out) ∨ ∃ fr ∈ s1.frames, fr.claimer v := by
  intro v hv
  cases h with
  | exhausted c pre post out u k hk =>
    have := claimer_keep
        pre post out out (.entry u k) [.returning] v
        (fun _ h => h) (fun hc => hc.elim) (hs v hv)
    simpa using this
  | call c pre post out u k hk =>
    have := claimer_keep
        pre post out out (.entry u k) ([.visiting (VisitCall.enter c u) k]) v
        (fun _ h => h) (fun hc => hc.elim) (hs v hv)
    simpa using this
  | lock c pre post out w k hpc hm =>
    have := claimer_keep
        pre post out out (.visiting w k) [.visiting { w with mux := true, pc := .lookup } k]
        v
        (fun _ h => h) (fun hc => by rw [hc.2.1] at hpc; cases hpc) (hs v hv)
    simpa using this
  | lookup c pre post out w k hpc =>
    have := claimer_keep
        pre post out out (.visiting w k)
        ([.visiting { w with presense := decide (w.url ∈ c.set), pc := .branch } k]) v
        (fun _ h => h) (fun hc => by rw [hc.2.1] at hpc; cases hpc)
      (hs v hv)
    simpa using this
  | insert c pre post out w k hpc hp =>
    rcases List.mem_insert_iff.mp hv with hvw | hvold
    · exact Or.inr (exists_mem_splice.mpr (Or.inr (Or.inl ⟨hvw.symm, rfl, rfl⟩)))
    · have := claimer_keep
        pre post out out (.visiting w k)
        [.visiting { w with mux := false, result := some false, pc := .returned } k] v
        (fun _ h => h) (fun hc => by rw [hc.2.1] at hpc; cases hpc)
        (hs v hvold)
      simpa using this
  | present c pre post out w k hpc hp =>
    have := claimer_keep
        pre post out out (.visiting w k)
        [.visiting { w with mux := false, result := some true, pc := .returned } k] v
        (fun _ h => h) (fun hc => by rw [hc.2.1] at hpc; cases hpc)
      (hs v hv)
    simpa using this
  | seen c pre post out w k hpc hr =>
    have := claimer_keep
        pre post out out (.visiting w k) [.returning] v
        (fun _ h => h) (fun hc => by rw [hc.2.2] at hr; cases hr) (hs v hv)
    simpa using this
  | claim c pre post out w k hpc hr =>
    have := claimer_keep
        pre post out out (.visiting w k) [.claimed w.url k] v
        (fun _ h => h) (fun hc => Or.inr ⟨_, List.mem_singleton_self _, hc.1⟩) (hs v hv)
    simpa using this
  | fetchErr c pre post out u k err hf =>
    have := claimer_keep
        pre post out (out ++ [.fetch u k, .failed u err]) (.claimed u k) [.returning] v
        (fun _ h => List.mem_append_left _ h)
      (fun hc => Or.inl ⟨k, by rw [← show u = v from hc]; simp⟩) (hs v hv)
    simpa using this
  | fetchOk c pre post out u k body urls hf =>
    have := claimer_keep
        pre post out (out ++ [.fetch u k, .found u body]) (.claimed u k) [.ranging urls k] v
        (fun _ h => List.mem_append_left _ h)
      (fun hc => Or.inl ⟨k, by rw [← show u = v from hc]; simp⟩) (hs v hv)
    simpa using this
  | loopEnd c pre post out k =>
    have := claimer_keep
        pre post out out (.ranging [] k) [.returning] v
        (fun _ h => h) (fun hc => hc.elim) (hs v hv)
    simpa using this
  | add c pre post out w rest k =>
    have := claimer_keep
        pre post out out (.ranging (w :: rest) k) [.registered w rest k] v
        (fun _ h => h) (fun hc => hc.elim) (hs v hv)
    simpa using this
  | go c pre post out w rest k =>
    have := claimer_keep
        pre post out out (.registered w rest k) ([.ranging rest k, .entry w (k - 1)]) v
        (fun _ h => h) (fun hc => hc.elim) (hs v hv)
    simpa using this
  | done c pre post out =>
    have := claimer_keep
        pre post out out .returning [] v
        (fun _ h => h) (fun hc => hc.elim) (hs v hv)
    simpa using this

theorem Origin.mono {fetcher : Fetcher} {root : String} {d : Int} {s s1 : State}
    (h : Step fetcher s s1) {u : String} {k : Int} (ho : Origin fetcher root d s u k) :
    Origin fetcher root d s1 u k := by
  rcases ho with ho | ⟨p, body, urls, hp, hf, hu⟩
  · exact Or.inl ho
  · exact Or.inr ⟨p, body, urls, h.out_mono _ hp, hf, hu⟩

theorem Frame.fromFetch_mono {fetcher : Fetcher} {root : String} {d : Int} {s s1 : State}
    (h : Step fetcher s s1) {fr : Frame} (ho : fr.fromFetch fetcher root d s) :
    fr.fromFetch fetcher root d s1 := by
  cases fr with
  | entry u k => exact Origin.mono h ho
  | visiting w k => exact Origin.mono h ho
  | claimed u k => exact Origin.mono h ho
  | ranging urls k =>
    obtain ⟨p, body, all, hp, hf, hsub⟩ := ho
    exact ⟨p, body, all, h.out_mono _ hp, hf, hsub⟩
  | registered v rest k =>
    obtain ⟨p, body, all, hp, hf, hsub⟩ := ho
    exact ⟨p, body, all, h.out_mono _ hp, hf, hsub⟩
  | returning => trivial

theorem Step.origin {fetcher : Fetcher} {root : String} {d : Int} {s s1 : State}
    (hs : (∀ fr ∈ s.frames, fr.fromFetch fetcher root d s) ∧
      ∀ u k, Event.fetch u k ∈ s.out → Origin fetcher root d s u k)
    (h : Step fetcher s s1) :
    (∀ fr ∈ s1.frames, fr.fromFetch fetcher root d s1) ∧
      ∀ u k, Event.fetch u k ∈ s1.out → Origin fetcher root d s1 u k := by
  have hfr : ∀ fr ∈ s.frames, fr.fromFetch fetcher root d s1 :=
    fun fr hmem => Frame.fromFetch_mono h (hs.1 fr hmem)
  have hev : ∀ u k, Event.fetch u k ∈ s.out → Origin fetcher root d s1 u k :=
    fun u k hmem => Origin.mono h (hs.2 u k hmem)
  clear hs
  cases h with
  | exhausted c pre post out u k hk => exact ⟨forall_splice_replace hfr trivial, hev⟩
  | call c pre post out u k hk =>
    obtain ⟨hpre, hp, hpost⟩ := forall_mem_splice.mp hfr
    exact ⟨forall_mem_splice.mpr ⟨hpre, hp, hpost⟩, hev⟩
  | lock c pre post out w k hpc hm =>
    obtain ⟨hpre, hp, hpost⟩ := forall_mem_splice.mp hfr
    exact ⟨forall_mem_splice.mpr ⟨hpre, hp, hpost⟩, hev⟩
  | lookup c pre post out w k hpc =>
    obtain ⟨hpre, hp, hpost⟩ := forall_mem_splice.mp hfr
    exact ⟨forall_mem_splice.mpr ⟨hpre, hp, hpost⟩, hev⟩
  | insert c pre post out w k hpc hp1 =>
    obtain ⟨hpre, hp, hpost⟩ := forall_mem_splice.mp hfr
    exact ⟨forall_mem_splice.mpr ⟨hpre, hp, hpost⟩, hev⟩
  | present c pre post out w k hpc hp1 =>
    obtain ⟨hpre, hp, hpost⟩ := forall_mem_splice.mp hfr
    exact ⟨forall_mem_splice.mpr ⟨hpre, hp, hpost⟩, hev⟩
  | seen c pre post out w k hpc hr => exact ⟨forall_splice_replace hfr trivial, hev⟩
  | claim c pre post out w k hpc hr =>
    obtain ⟨hpre, hp, hpost⟩ := forall_mem_splice.mp hfr
    exact ⟨forall_mem_splice.mpr ⟨hpre, hp, hpost⟩, hev⟩
  | fetchErr c pre post out u k err hf =>
    obtain ⟨hpre, hp, hpost⟩ := forall_mem_splice.mp hfr
    refine ⟨forall_mem_splice.mpr ⟨hpre, trivial, hpost⟩, ?_⟩
    intro w j hw
    rcases mem_out_pair hw with hw | hw | hw
    · exact hev w j hw
    · cases hw
      exact hp
    · cases hw
  | fetchOk c pre post out u k body urls hf =>
    obtain ⟨hpre, hp, hpost⟩ := forall_mem_splice.mp hfr
    refine ⟨forall_mem_splice.mpr
      ⟨hpre, ⟨u, body, urls, by simp, hf, fun v hv => hv⟩, hpost⟩, ?_⟩
    intro w j hw
    rcases mem_out_pair hw with hw | hw | hw
    · exact hev w j hw
    · cases hw
      exact hp
    · cases hw
  | loopEnd c pre post out k => exact ⟨forall_splice_replace hfr trivial, hev⟩
  | add c pre post out v rest k =>
    obtain ⟨hpre, ⟨p, body, all, hp, hf, hsub⟩, hpost⟩ := forall_mem_splice.mp hfr
    exact ⟨forall_mem_splice.mpr ⟨hpre, ⟨p, body, all, hp, hf, hsub⟩, hpost⟩, hev⟩
  | go c pre post out v rest k =>
    obtain ⟨hpre, ⟨p, body, all, hp, hf, hsub⟩, hpost⟩ := forall_mem_splice.mp hfr
    refine ⟨forall_mem_splice.mpr ⟨hpre,
      ⟨p, body, all, hp, hf, fun w hw => hsub w (List.mem_cons_of_mem _ hw)⟩,
      List.forall_mem_cons.mpr ⟨Or.inr ⟨p, body, all, ?_, hf, hsub v (List.mem_cons_self _ _)⟩,
        hpost⟩⟩, hev⟩
    have : k - 1 + 1 = k := by omega
    rw [this]
    exact hp
  | done c pre post out =>
    obtain ⟨hpre, -, hpost⟩ := forall_mem_splice.mp hfr
    exact ⟨List.forall_mem_append.mpr ⟨hpre, hpost⟩, hev⟩

theorem step_single (fetcher : Fetcher) (c : SafeCounter) (fr : Frame) (out : List Event)
    (i : Nat) (s1 : State) (h : step fetcher ⟨c, [fr], out⟩ i = some s1) :
    ∃ r, Crawl.next fetcher c fr = some r ∧ s1 = ⟨r.1, r.2.1, out ++ r.2.2⟩ := by
  cases i with
  | zero =>
    simp only [step, List.getElem?_cons_zero] at h
    cases hn : Crawl.next fetcher c fr with
    | none => simp [hn] at h
    | some r =>
      obtain ⟨c1, frs, evs⟩ := r
      simp only [hn, List.take_zero, List.nil_append, zero_add, List.drop_succ_cons,
        List.drop_zero, List.append_nil, Option.some.injEq] at h
      exact ⟨_, rfl, h.symm⟩
  | succ i => simp [step] at h

theorem Step.claimed_keep {fetcher : Fetcher} {s s1 : State} {u : String} {k : Int}
    (hs : Frame.claimed u k ∈ s.frames) (h : Step fetcher s s1) :
    Frame.claimed u k ∈ s1.frames ∨ Event.fetch u k ∈ s1.out := by
  cases h with
  | fetchErr c pre post out w j err hfu =>
    rcases List.mem_append.mp hs with h1 | h1
    · exact Or.inl (List.mem_append_left _ h1)
    · rcases List.mem_cons.mp h1 with h2 | h2
      · cases h2
        exact Or.inr (by simp)
      · exact Or.inl (List.mem_append_right _ (List.mem_cons_of_mem _ h2))
  | fetchOk c pre post out w j body urls hfu =>
    rcases List.mem_append.mp hs with h1 | h1
    · exact Or.inl (List.mem_append_left _ h1)
    · rcases List.mem_cons.mp h1 with h2 | h2
      · cases h2
        exact Or.inr (by simp)
      · exact Or.inl (List.mem_append_right _ (List.mem_cons_of_mem _ h2))
  | _ =>
    left
    simp only [List.mem_append, List.mem_cons, reduceCtorEq, false_or] at hs ⊢
    tauto

theorem step_root {fetcher : Fetcher} {root : String} {d : Int} (hd : 0 < d) (s : State)
    (i : Nat) (s1 : State)
    (hs : Event.fetch root d ∈ s.out ∨ Frame.claimed root d ∈ s.frames ∨
      (∃ call, s.frames = [.visiting call d] ∧ call.url = root ∧ call.fresh s.counter.set) ∨
      s = startCrawl root d)
    (hst : step fetcher s i = some s1) :
    Event.fetch root d ∈ s1.out ∨ Frame.claimed root d ∈ s1.frames ∨
      (∃ call, s1.frames = [.visiting call d] ∧ call.url = root ∧ call.fresh s1.counter.set) ∨
      s1 = startCrawl root d := by
  have hnd : ¬ d ≤ 0 := by omega
  rcases hs with h1 | h2 | ⟨call, hfr, hurl, hfresh⟩ | rfl
  · exact Or.inl ((step_sound fetcher s i s1 hst).out_mono _ h1)
  · rcases (step_sound fetcher s i s1 hst).claimed_keep h2 with h | h
    · exact Or.inr (Or.inl h)
    · exact Or.inl h
  · obtain ⟨c, frames, out⟩ := s
    simp only at hfr hfresh
    subst hfr
    obtain ⟨r, hn, rfl⟩ := step_single fetcher c _ out i s1 hst
    rcases hfresh with ⟨hpc, hm, hset⟩ | ⟨hpc, hset⟩ | ⟨hpc, hp⟩ | ⟨hpc, hr⟩
    · simp only [Crawl.next, hpc, VisitCall.next, hm, Bool.false_eq_true, if_false,
        Option.some.injEq] at hn
      subst hn
      exact Or.inr (Or.inr (Or.inl ⟨_, rfl, hurl, Or.inr (Or.inl ⟨rfl, hset⟩)⟩))
    · simp only [Crawl.next, hpc, VisitCall.next, Option.some.injEq] at hn
      subst hn
      refine Or.inr (Or.inr (Or.inl ⟨_, rfl, hurl, Or.inr (Or.inr (Or.inl ⟨rfl, ?_⟩))⟩))
      simp [hset]
    · simp only [Crawl.next, hpc, VisitCall.next, hp, Bool.not_false, if_true,
        Option.some.injEq] at hn
      subst hn
      exact Or.inr (Or.inr (Or.inl ⟨_, rfl, hurl, Or.inr (Or.inr (Or.inr ⟨rfl, rfl⟩))⟩))
    · simp only [Crawl.next, hpc, hr, Option.some.injEq, reduceCtorEq, if_false] at hn
      subst hn
      exact Or.inr (Or.inl (by simp [hurl]))
  · obtain ⟨r, hn, rfl⟩ := step_single fetcher _ _ _ i s1 hst
    simp only [Crawl.next, hnd, if_false, Option.some.injEq] at hn
    subst hn
    exact Or.inr (Or.inr (Or.inl ⟨_, rfl, rfl, Or.inl ⟨rfl, rfl, rfl⟩⟩))

theorem reach_wg {fetcher : Fetcher} {root : String} {d : Int} {sched : List Nat} {s : State}
    (h : exec fetcher (startCrawl root d) sched = some s) :
    s.counter.wg = outstanding s := by
  refine exec_invariant fetcher (fun s => s.counter.wg = outstanding s)
    (fun _ _ hs hst => Step.wg_eq hs hst) sched _ s ?_ h
  simp [startCrawl, outstanding, counter, SafeCounter.Add, Frame.units]

theorem reach_depth {fetcher : Fetcher} {root : String} {d : Int} {sched : List Nat} {s : State}
    (h : exec fetcher (startCrawl root d) sched = some s) :
    (∀ fr ∈ s.frames, fr.onPath fetcher root d) ∧
      ∀ u k, Event.fetch u k ∈ s.out → 0 < k ∧ OnPath fetcher root d u k := by
  refine exec_invariant fetcher
    (fun s => (∀ fr ∈ s.frames, fr.onPath fetcher root d) ∧
      ∀ u k, Event.fetch u k ∈ s.out → 0 < k ∧ OnPath fetcher root d u k)
    (fun _ _ hs hst => Step.depth hs hst) sched _ s ?_ h
  constructor
  · intro fr hfr
    simp only [startCrawl, List.mem_singleton] at hfr
    subst hfr
    exact ⟨0, by simp, by simp [level]⟩
  · intro u k hu
    simp [startCrawl] at hu

theorem reach_fan {fetcher : Fetcher} {root : String} {d : Int} {sched : List Nat} {s : State}
    (h : exec fetcher (startCrawl root d) sched = some s) :
    ∀ u k body urls, Event.fetch u k ∈ s.out → fetcher u = .ok (body, urls) → 2 ≤ k →
      ∀ v ∈ urls, Pending s v := by
  refine exec_invariant fetcher
    (fun s => ∀ u k body urls, Event.fetch u k ∈ s.out → fetcher u = .ok (body, urls) → 2 ≤ k →
      ∀ v ∈ urls, Pending s v)
    (fun _ _ hs hst => Step.fan hs hst) sched _ s ?_ h
  intro u k body urls hu
  simp [startCrawl] at hu

theorem reach_claimers {fetcher : Fetcher} {root : String} {d : Int} {sched : List Nat}
    {s : State} (h : exec fetcher (startCrawl root d) sched = some s) :
    ∀ v ∈ s.counter.set, (∃ k, Event.fetch v k ∈ s.out) ∨ ∃ fr ∈ s.frames, fr.claimer v := by
  refine exec_invariant fetcher
    (fun s => ∀ v ∈ s.counter.set,
      (∃ k, Event.fetch v k ∈ s.out) ∨ ∃ fr ∈ s.frames, fr.claimer v)
    (fun _ _ hs hst => Step.claimers hs hst) sched _ s ?_ h
  intro v hv
  simp [startCrawl, counter, SafeCounter.Add] at hv

theorem reach_origin {fetcher : Fetcher} {root : String} {d : Int} {sched : List Nat}
    {s : State} (h : exec fetcher (startCrawl root d) sched = some s) :
    (∀ fr ∈ s.frames, fr.fromFetch fetcher root d s) ∧
      ∀ u k, Event.fetch u k ∈ s.out → Origin fetcher root d s u k := by
  refine exec_invariant fetcher
    (fun s => (∀ fr ∈ s.frames, fr.fromFetch fetcher root d s) ∧
      ∀ u k, Event.fetch u k ∈ s.out → Origin fetcher root d s u k)
    (fun _ _ hs hst => Step.origin hs hst) sched _ s ?_ h
  constructor
  · intro fr hfr
    simp only [startCrawl, List.mem_singleton] at hfr
    subst hfr
    exact Or.inl ⟨rfl, rfl⟩
  · intro u k hu
    simp [startCrawl] at hu

theorem reach_root {fetcher : Fetcher} {root : String} {d : Int} {sched : List Nat} {s : State}
    (hd : 0 < d) (h : exec fetcher (startCrawl root d) sched = some s) :
    Event.fetch root d ∈ s.out ∨ Frame.claimed root d ∈ s.frames ∨
      (∃ call, s.frames = [.visiting call d] ∧ call.url = root ∧ call.fresh s.counter.set) ∨
      s = startCrawl root d :=
  exec_invariant_step fetcher
    (fun s => Event.fetch root d ∈ s.out ∨ Frame.claimed root d ∈ s.frames ∨
      (∃ call, s.frames = [.visiting call d] ∧ call.url = root ∧ call.fresh s.counter.set) ∨
      s = startCrawl root d)
    (fun s i s1 hs hst => step_root hd s i s1 hs hst) sched _ s (Or.inr (Or.inr (Or.inr rfl))) h

theorem fetchCount_pos_iff (u : String) (out : List Event) :
    0 < fetchCount u out ↔ ∃ k, Event.fetch u k ∈ out := by
  simp only [fetchCount, List.countP_pos_iff]
  constructor
  · rintro ⟨e, he, hf⟩
    cases e with
    | fetch v k =>
      simp only [Event.fetches, decide_eq_true_eq] at hf
      exact ⟨k, hf ▸ he⟩
    | found v b => simp [Event.fetches] at hf
    | failed v b => simp [Event.fetches] at hf
  · rintro ⟨k, hk⟩
    exact ⟨_, hk, by simp [Event.fetches]⟩

theorem fetchCount_eq_zero_iff (u : String) (out : List Event) :
    fetchCount u out = 0 ↔ ∀ k, Event.fetch u k ∉ out := by
  have := fetchCount_pos_iff u out
  constructor
  · intro h k hk
    have := this.mpr ⟨k, hk⟩
    omega
  · intro h
    by_contra hne
    obtain ⟨k, hk⟩ := this.mp (by omega)
    exact h k hk

theorem fetch_event_near {fetcher : Fetcher} {root : String} {d : Int} {sched : List Nat}
    {s : State} (h : exec fetcher (startCrawl root d) sched = some s) (u : String) (k : Int)
    (hu : Event.fetch u k ∈ s.out) :
    ∃ n : Nat, (n : Int) < d ∧ u ∈ level fetcher root n := by
  obtain ⟨hk, n, hn, hmem⟩ := (reach_depth h).2 u k hu
  exact ⟨n, by omega, hmem⟩

theorem done_root_fetched {fetcher : Fetcher} {root : String} {d : Int} {sched : List Nat}
    {s : State} (h : exec fetcher (startCrawl root d) sched = some s) (hdone : s.frames = [])
    (hd : 0 < d) : Event.fetch root d ∈ s.out := by
  rcases reach_root hd h with h1 | h1 | ⟨call, h1, -⟩ | h1
  · exact h1
  · rw [hdone] at h1
    exact absurd h1 (List.not_mem_nil _)
  · rw [hdone] at h1
    cases h1
  · rw [h1] at hdone
    simp [startCrawl] at hdone

theorem done_set_fetched {fetcher : Fetcher} {root : String} {d : Int} {sched : List Nat}
    {s : State} (h : exec fetcher (startCrawl root d) sched = some s) (hdone : s.frames = [])
    (v : String) (hv : v ∈ s.counter.set) : ∃ k, Event.fetch v k ∈ s.out := by
  rcases reach_claimers h v hv with h1 | ⟨fr, hfr, -⟩
  · exact h1
  · rw [hdone] at hfr
    exact absurd hfr (List.not_mem_nil fr)

theorem done_pending {s : State} (hdone : s.frames = []) {v : String} (hv : Pending s v) :
    v ∈ s.counter.set := by
  rcases hv with hv | ⟨fr, hfr, -⟩
  · exact hv
  · rw [hdone] at hfr
    exact absurd hfr (List.not_mem_nil fr)

theorem done_link_fetched {fetcher : Fetcher} {root : String} {d : Int} {sched : List Nat}
    {s : State} (h : exec fetcher (startCrawl root d) sched = some s) (hdone : s.frames = [])
    {u : String} {k : Int} {body : String} {urls : List String} (hu : Event.fetch u k ∈ s.out)
    (hf : fetcher u = .ok (body, urls)) (hk : 2 ≤ k) (v : String) (hv : v ∈ urls) :
    ∃ j, Event.fetch v j ∈ s.out :=
  done_set_fetched h hdone v (done_pending hdone (reach_fan h u k body urls hu hf hk v hv))

theorem tickets_keep (fetcher : Fetcher) (root : String) (d : Int) (u : String)
    (pre post : List Frame) (out evs : List Event) (x : Frame) (ys : List Frame)
    (hloc : fetchCount u evs + (ys.map (Frame.tickets u)).sum
      ≤ x.tickets u + (evs.map (Event.grants fetcher u)).sum)
    (hs : fetchCount u out + ((pre ++ x :: post).map (Frame.tickets u)).sum
      ≤ started fetcher root d u out) :
    fetchCount u (out ++ evs) + ((pre ++ ys ++ post).map (Frame.tickets u)).sum
      ≤ started fetcher root d u (out ++ evs) := by
  simp only [fetchCount, List.countP_append, List.map_append, List.sum_append, started,
    List.map_cons, List.sum_cons] at hs hloc ⊢
  omega

theorem Step.tickets {fetcher : Fetcher} {root : String} {d : Int} {s s1 : State} (u : String)
    (hs : fetchCount u s.out + (s.frames.map (Frame.tickets u)).sum
      ≤ started fetcher root d u s.out)
    (h : Step fetcher s s1) :
    fetchCount u s1.out + (s1.frames.map (Frame.tickets u)).sum
      ≤ started fetcher root d u s1.out := by
  cases h with
  | exhausted c pre post out w k hk =>
    have := tickets_keep
        fetcher root d u pre post out [] (.entry w k) [.returning]
        (by simp [fetchCount, Frame.tickets]) hs
    simpa using this
  | call c pre post out w k hk =>
    have := tickets_keep
        fetcher root d u pre post out [] (.entry w k) ([.visiting (VisitCall.enter c w) k])
        (by simp [fetchCount, Frame.tickets, VisitCall.enter, hk]) hs
    simpa using this
  | lock c pre post out v k hpc hm =>
    have := tickets_keep
        fetcher root d u pre post out [] (.visiting v k)
        [.visiting { v with mux := true, pc := .lookup } k]
        (by simp [fetchCount, Frame.tickets]) hs
    simpa using this
  | lookup c pre post out v k hpc =>
    have := tickets_keep
        fetcher root d u pre post out [] (.visiting v k)
        ([.visiting { v with presense := decide (v.url ∈ c.set), pc := .branch } k])
        (by simp [fetchCount, Frame.tickets]) hs
    simpa using this
  | insert c pre post out v k hpc hp =>
    have := tickets_keep
        fetcher root d u pre post out [] (.visiting v k)
        [.visiting { v with mux := false, result := some false, pc := .returned } k]
        (by simp [fetchCount, Frame.tickets]) hs
    simpa using this
  | present c pre post out v k hpc hp =>
    have := tickets_keep
        fetcher root d u pre post out [] (.visiting v k)
        [.visiting { v with mux := false, result := some true, pc := .returned } k]
        (by simp [fetchCount, Frame.tickets]) hs
    simpa using this
  | seen c pre post out v k hpc hr =>
    have := tickets_keep
        fetcher root d u pre post out [] (.visiting v k) [.returning]
        (by simp [fetchCount, Frame.tickets]) hs
    simpa using this
  | claim c pre post out v k hpc hr =>
    have := tickets_keep
        fetcher root d u pre post out [] (.visiting v k) [.claimed v.url k]
        (by simp [fetchCount, Frame.tickets]) hs
    simpa using this
  | fetchErr c pre post out w k err hf =>
    have := tickets_keep
        fetcher root d u pre post out [.fetch w k, .failed w err] (.claimed w k)
        [.returning]
        (by
        by_cases hwu : w = u <;>
          simp [fetchCount, Event.fetches, Frame.tickets, Event.grants, links, hf, hwu]) hs
    simpa using this
  | fetchOk c pre post out w k body urls hf =>
    have := tickets_keep
        fetcher root d u pre post out [.fetch w k, .found w body] (.claimed w k)
        [.ranging urls k]
        (by
        have hk2 : (2 ≤ k) ↔ (1 < k) := by omega
        by_cases hwu : w = u
        · subst hwu
          simp [fetchCount, Event.fetches, Frame.tickets, Event.grants, links, hf, hk2]
        · simp [fetchCount, Event.fetches, Frame.tickets, Event.grants, links, hf, hwu, hk2])
      hs
    simpa using this
  | loopEnd c pre post out k =>
    have := tickets_keep
        fetcher root d u pre post out [] (.ranging [] k) [.returning]
        (by simp [fetchCount, Frame.tickets]) hs
    simpa using this
  | add c pre post out w rest k =>
    have := tickets_keep
        fetcher root d u pre post out [] (.ranging (w :: rest) k) [.registered w rest k]
        (by simp [fetchCount, Frame.tickets]) hs
    simpa using this
  | go c pre post out w rest k =>
    have := tickets_keep
        fetcher root d u pre post out [] (.registered w rest k)
        ([.ranging rest k, .entry w (k - 1)])
        (by
        have hk1 : (0 < k - 1) ↔ (1 < k) := by omega
        by_cases hk : 1 < k <;> by_cases hwu : w = u <;>
          simp [fetchCount, Frame.tickets, List.count_cons, hk, hwu, hk1]) hs
    simpa using this
  | done c pre post out =>
    have := tickets_keep
        fetcher root d u pre post out [] .returning []
        (by simp [fetchCount, Frame.tickets]) hs
    simpa using this

theorem exec_cons (fetcher : Fetcher) (s s1 : State) (sched : List Nat)
    (h1 : step fetcher s 0 = some s1) :
    exec fetcher s (0 :: sched) = exec fetcher s1 sched := by
  simp [exec, h1]

theorem visit_absent_steps (fetcher : Fetcher) (u : String) (d : Int) (c : SafeCounter)
    (post : List Frame) (out : List Event) (sched : List Nat) (hd : 0 < d)
    (hmux : c.mux = false) (hu : u ∉ c.set) :
    exec fetcher ⟨c, .entry u d :: post, out⟩ (0 :: 0 :: 0 :: 0 :: 0 :: sched) =
      exec fetcher ⟨{ c with set := u :: c.set }, .claimed u d :: post, out⟩ sched := by
  have hnd : ¬ d ≤ 0 := by omega
  rw [exec_cons fetcher _ ⟨c, .visiting (VisitCall.enter c u) d :: post, out⟩ _
      (by simp [step, Crawl.next, hnd]),
    exec_cons fetcher _
      ⟨c, .visiting ⟨u, true, .lookup, false, none⟩ d :: post, out⟩ _
      (by
        simp [step, Crawl.next, VisitCall.next, VisitCall.enter, hmux]
        cases c
        simp_all),
    exec_cons fetcher _
      ⟨c, .visiting ⟨u, true, .branch, false, none⟩ d :: post, out⟩ _
      (by simp [step, Crawl.next, VisitCall.next, hu]),
    exec_cons fetcher _
      ⟨{ c with set := u :: c.set },
        .visiting ⟨u, false, .returned, false, some false⟩ d :: post, out⟩ _
      (by simp [step, Crawl.next, VisitCall.next, List.insert_of_not_mem hu]),
    exec_cons fetcher _ ⟨{ c with set := u :: c.set }, .claimed u d :: post, out⟩ _
      (by simp [step, Crawl.next])]

theorem visit_present_steps (fetcher : Fetcher) (u : String) (d : Int) (c : SafeCounter)
    (post : List Frame) (out : List Event) (sched : List Nat) (hd : 0 < d)
    (hmux : c.mux = false) (hu : u ∈ c.set) :
    exec fetcher ⟨c, .entry u d :: post, out⟩ (0 :: 0 :: 0 :: 0 :: 0 :: sched) =
      exec fetcher ⟨c, .returning :: post, out⟩ sched := by
  have hnd : ¬ d ≤ 0 := by omega
  rw [exec_cons fetcher _ ⟨c, .visiting (VisitCall.enter c u) d :: post, out⟩ _
      (by simp [step, Crawl.next, hnd]),
    exec_cons fetcher _
      ⟨c, .visiting ⟨u, true, .lookup, false, none⟩ d :: post, out⟩ _
      (by
        simp [step, Crawl.next, VisitCall.next, VisitCall.enter, hmux]
        cases c
        simp_all),
    exec_cons fetcher _
      ⟨c, .visiting ⟨u, true, .branch, true, none⟩ d :: post, out⟩ _
      (by simp [step, Crawl.next, VisitCall.next, hu]),
    exec_cons fetcher _
      ⟨c, .visiting ⟨u, false, .returned, true, some true⟩ d :: post, out⟩ _
      (by simp [step, Crawl.next, VisitCall.next]),
    exec_cons fetcher _ ⟨c, .returning :: post, out⟩ _
      (by simp [step, Crawl.next])]

theorem ranging_steps (fetcher : Fetcher) (d : Int) :
    ∀ (urls : List String) (c : SafeCounter) (post : List Frame) (out : List Event),
      exec fetcher ⟨c, .ranging urls d :: post, out⟩ (List.replicate (2 * urls.length + 2) 0) =
        some ⟨(urls.foldl (fun acc _ => acc.Add 1) c).Done,
          (urls.map (fun u => Frame.entry u (d - 1))).reverse ++ post, out⟩ := by
  intro urls
  induction urls with
  | nil =>
    intro c post out
    simp [exec, step, Crawl.next]
  | cons v rest ih =>
    intro c post out
    have hlen : 2 * (v :: rest).length + 2 = (2 * rest.length + 2) + 1 + 1 := by
      simp only [List.length_cons]; omega
    rw [hlen, List.replicate_succ, List.replicate_succ,
      exec_cons fetcher _ ⟨c.Add 1, .registered v rest d :: post, out⟩ _
        (by simp [step, Crawl.next]),
      exec_cons fetcher _ ⟨c.Add 1, .ranging rest d :: .entry v (d - 1) :: post, out⟩ _
        (by simp [step, Crawl.next]),
      ih (c.Add 1) (.entry v (d - 1) :: post) out]
    simp

/-- The body of `Crawl` run as one block is what the steps of its activation
add up to when no other activation runs in between (the goroutines it
started come out last started first). -/
theorem Crawl_steps (fetcher : Fetcher) (u : String) (d : Int) (c : SafeCounter)
    (post : List Frame) (out : List Event) (hmux : c.mux = false) :
    ∃ n, exec fetcher ⟨c, .entry u d :: post, out⟩ (List.replicate n 0) =
      some ⟨(Crawl u d fetcher c).1, (Crawl u d fetcher c).2.1.reverse ++ post,
        out ++ (Crawl u d fetcher c).2.2⟩ := by
  by_cases hd : d ≤ 0
  · exact ⟨2, by simp [exec, step, Crawl.next, Crawl, hd]⟩
  · have hpos : 0 < d := by omega
    by_cases hu : u ∈ c.set
    · refine ⟨1 + 5, ?_⟩
      rw [show List.replicate (1 + 5) 0 = 0 :: 0 :: 0 :: 0 :: 0 :: [0] from rfl,
        visit_present_steps fetcher u d c post out _ hpos hmux hu]
      simp [exec, step, Crawl.next, Crawl, hd, visited, hu]
    · cases hf : fetcher u with
      | error err =>
        refine ⟨2 + 5, ?_⟩
        rw [show List.replicate (2 + 5) 0 = 0 :: 0 :: 0 :: 0 :: 0 :: [0, 0] from rfl,
          visit_absent_steps fetcher u d c post out _ hpos hmux hu]
        simp [exec, step, Crawl.next, Crawl, hd, visited, hu, hf, List.insert_of_not_mem]
      | ok r =>
        obtain ⟨body, urls⟩ := r
        refine ⟨(2 * urls.length + 2) + 1 + 5, ?_⟩
        rw [show List.replicate ((2 * urls.length + 2) + 1 + 5) 0
            = 0 :: 0 :: 0 :: 0 :: 0 :: 0 :: List.replicate (2 * urls.length + 2) 0 from by
              simp [List.replicate_succ],
          visit_absent_steps fetcher u d c post out _ hpos hmux hu,
          exec_cons fetcher _ ⟨{ c with set := u :: c.set }, .ranging urls d :: post,
              out ++ [.fetch u d, .found u body]⟩ _ (by simp [step, Crawl.next, hf]),
          ranging_steps]
        simp [Crawl, hd, visited, hu, hf, List.insert_of_not_mem]

/-- The program itself: `main` run with the first live activation scheduled
at every step and no clash completes after 95 steps, with four pages found
and one failure. -/
theorem main_run :
    run (fakeFetcher.Fetch fetcher) main (List.replicate 95 0) none =
      some (.completed
        [.fetch "https://golang.org/" 4,
         .found "https://golang.org/" "The Go Programming Language",
         .fetch "https://golang.org/cmd/" 3,
         .failed "https://golang.org/cmd/" "not found: https://golang.org/cmd/",
         .fetch "https://golang.org/pkg/" 3,
         .found "https://golang.org/pkg/" "Packages",
         .fetch "https://golang.org/pkg/os/" 2,
         .found "https://golang.org/pkg/os/" "Package os",
         .fetch "https://golang.org/pkg/fmt/" 2,
         .found "https://golang.org/pkg/fmt/" "Package fmt"]) := by
  decide

theorem visited_fst (sc : SafeCounter) (url : String) :
    (visited sc url).1 = decide (url ∈ sc.set) := by
  by_cases h : url ∈ sc.set <;> simp [visited, h]

theorem visited_set (sc : SafeCounter) (url : String) (v : String) :
    v ∈ (visited sc url).2.set ↔ v = url ∨ v ∈ sc.set := by
  by_cases h : url ∈ sc.set
  · simp only [visited, h, decide_True, Bool.not_true, Bool.false_eq_true, if_false]
    constructor
    · exact Or.inr
    · rintro (rfl | h1)
      · exact h
      · exact h1
  · simp [visited, h, List.insert_of_not_mem]

theorem visitedAll_getElem? :
    ∀ (us : List String) (sc : SafeCounter) (i : Nat) (hi : i < us.length),
      (visitedAll sc us)[i]? = some (decide (us[i] ∈ sc.set ∨ us[i] ∈ us.take i)) := by
  intro us
  induction us with
  | nil => intro sc i hi; simp at hi
  | cons a us ih =>
    intro sc i hi
    cases i with
    | zero => simp [visitedAll, visited_fst]
    | succ i =>
      have hi1 : i < us.length := by simpa using hi
      simp only [visitedAll, List.getElem?_cons_succ, List.getElem_cons_succ, List.take_succ_cons,
        List.mem_cons]
      rw [ih (visited sc a).2 i hi1]
      congr 1
      rw [decide_eq_decide, visited_set]
      tauto

theorem visited_alone (sc : SafeCounter) (url : String) (hmux : sc.mux = false) :
    Race.exec (Race.enter sc [url]) [0, 0, 0] =
      some { set := (visited sc url).2.set
             calls := [{ url := url, mux := false, pc := .returned,
                         presense := decide (url ∈ sc.set),
                         result := some (visited sc url).1 }] } := by
  by_cases h : url ∈ sc.set <;>
    simp [Race.exec, Race.step, Race.enter, VisitCall.enter, VisitCall.next, visited, hmux, h]

/-! ## The claims -/

/-- C1: starting from the empty set, in every sequence of calls of `visited`
run one after the other, a call returns true exactly when its address was
passed by an earlier call: the first call with an address returns false
(newly claimed) and every later call with it returns true (already claimed),
whatever other addresses come in between. -/
theorem visited_sequential (us : List String) (i : Nat) (hi : i < us.length) :
    (visitedAll counter us)[i]? = some (decide (us[i] ∈ us.take i)) := by
  rw [visitedAll_getElem? us counter i hi]
  simp [counter]

theorem visited_sequential_witness :
    (visitedAll counter ["a", "b", "a", "b", "c", "a"])[2]? =
      some (decide (["a", "b", "a", "b", "c", "a"][2] ∈ ["a", "b", "a", "b", "c", "a"].take 2)) ∧
    visitedAll counter ["a", "b", "a", "b", "c", "a"] = [false, false, true, true, false, true] :=
  ⟨visited_sequential ["a", "b", "a", "b", "c", "a"] 2 (by decide), by decide⟩

/-- C2, the code at the failing input: on the page R that links to X twice,
with depth 2, the two branches for X both run the lookup of line 25 before
either inserts, both get false from `visited`, and `Fetch` is called on X
twice before the crawl completes. -/
theorem crawl_fetches_twice :
    exec (fakeFetcher.Fetch twice) (startCrawl "R" 2) twiceSched = some twiceDone ∧
    twiceDone.frames = [] ∧ fetchCount "X" twiceDone.out = 2 := by
  decide

/-- C3: in every execution of the crawl from `root` with depth `d`, an
address that is fetched lies at the end of a path from the root of length
less than `d`; so no fetch is attempted for an address that is reachable only
by paths longer than `d`.  And an invocation of `Crawl` with depth at most 0
claims nothing, fetches nothing and starts nothing: it only calls `wg.Done`. -/
theorem depth_bound (fetcher : Fetcher) (root : String) (d : Int) (sched : List Nat) (s : State)
    (h : exec fetcher (startCrawl root d) sched = some s) :
    (∀ u k, Event.fetch u k ∈ s.out → ∃ n : Nat, (n : Int) < d ∧ u ∈ level fetcher root n) ∧
    (∀ u, (∀ n : Nat, u ∈ level fetcher root n → d < (n : Int)) → fetchCount u s.out = 0) ∧
    (∀ (c : SafeCounter) (u : String) (k : Int), k ≤ 0 →
      Crawl u k fetcher c = (c.Done, [], []) ∧
      Crawl.next fetcher c (.entry u k) = some (c, [.returning], []) ∧
      Crawl.next fetcher c .returning = some (c.Done, [], [])) := by
  refine ⟨fetch_event_near h, ?_, ?_⟩
  · intro u hfar
    rw [fetchCount_eq_zero_iff]
    intro k hk
    obtain ⟨n, hn, hmem⟩ := fetch_event_near h u k hk
    have := hfar n hmem
    omega
  · intro c u k hk
    simp [Crawl, Crawl.next, hk]

theorem depth_bound_witness :
    exec (fakeFetcher.Fetch diamond) (startCrawl "A" 3) diamondSched = some diamondDone ∧
    ((∀ u k, Event.fetch u k ∈ diamondDone.out →
        ∃ n : Nat, (n : Int) < 3 ∧ u ∈ level (fakeFetcher.Fetch diamond) "A" n) ∧
    (∀ u, (∀ n : Nat, u ∈ level (fakeFetcher.Fetch diamond) "A" n → (3 : Int) < (n : Int)) →
        fetchCount u diamondDone.out = 0) ∧
    (∀ (c : SafeCounter) (u : String) (k : Int), k ≤ 0 →
      Crawl u k (fakeFetcher.Fetch diamond) c = (c.Done, [], []) ∧
      Crawl.next (fakeFetcher.Fetch diamond) c (.entry u k) = some (c, [.returning], []) ∧
      Crawl.next (fakeFetcher.Fetch diamond) c .returning = some (c.Done, [], []))) :=
  ⟨by decide, depth_bound (fakeFetcher.Fetch diamond) "A" 3 diamondSched diamondDone (by decide)⟩

/-- C4, the claim as stated fails: on the graph A -> [B] with depth 1 the
crawl completes and B, one link from the root and never claimed, is not
fetched; and on the graph A -> [B, C], B -> [C], C -> [D] with depth 3 a
schedule completes the crawl with D, two links from the root and never
claimed, not fetched. -/
theorem completeness_counterexample :
    (exec (fakeFetcher.Fetch chain) (startCrawl "A" 1) [0, 0, 0, 0, 0, 0, 0, 0, 0, 0, 0, 0]
        = some chainDone ∧
      chainDone.frames = [] ∧ "B" ∈ level (fakeFetcher.Fetch chain) "A" 1 ∧
      "B" ∉ chainDone.counter.set ∧ fetchCount "B" chainDone.out = 0) ∧
    (exec (fakeFetcher.Fetch diamond) (startCrawl "A" 3) diamondSched = some diamondDone ∧
      diamondDone.frames = [] ∧ "D" ∈ level (fakeFetcher.Fetch diamond) "A" 2 ∧
      "D" ∉ diamondDone.counter.set ∧ fetchCount "D" diamondDone.out = 0) := by
  decide

/-- C4 as amended: when the crawl has completed, the root has been fetched
by the branch with the depth of the crawl, when that depth is positive; every
link of a page that a branch with depth at least 2 fetched with success has
been fetched; and every fetch was made by a branch with a depth `j`,
`0 < j`, for an address at the end of a path from the root whose length and
`j` add up to the depth of the crawl, that branch being the root branch or
one started for a link of a page fetched with success by a branch with depth
`j + 1`.  How often an address is fetched is left open. -/
theorem dispatched_fetched (fetcher : Fetcher) (root : String) (d : Int) (sched : List Nat)
    (s : State) (h : exec fetcher (startCrawl root d) sched = some s) (hdone : s.frames = []) :
    (0 < d → Event.fetch root d ∈ s.out) ∧
    (∀ u k body urls, Event.fetch u k ∈ s.out → fetcher u = .ok (body, urls) → 2 ≤ k →
      ∀ v ∈ urls, ∃ j, Event.fetch v j ∈ s.out) ∧
    (∀ v j, Event.fetch v j ∈ s.out →
      0 < j ∧ (∃ n : Nat, (n : Int) + j = d ∧ v ∈ level fetcher root n) ∧
      ((v = root ∧ j = d) ∨
        ∃ u body urls, Event.fetch u (j + 1) ∈ s.out ∧ fetcher u = .ok (body, urls) ∧
          v ∈ urls)) :=
  ⟨fun hd => done_root_fetched h hdone hd,
    fun _ _ _ _ hu hf hk v hv => done_link_fetched h hdone hu hf hk v hv,
    fun v j hv => ⟨((reach_depth h).2 v j hv).1, ((reach_depth h).2 v j hv).2,
      (reach_origin h).2 v j hv⟩⟩

theorem dispatched_fetched_witness :
    exec (fakeFetcher.Fetch diamond) (startCrawl "A" 3) diamondSched = some diamondDone ∧
    diamondDone.frames = [] ∧
    ((0 < (3 : Int) → Event.fetch "A" 3 ∈ diamondDone.out) ∧
    (∀ u k body urls, Event.fetch u k ∈ diamondDone.out →
      fakeFetcher.Fetch diamond u = .ok (body, urls) → 2 ≤ k →
      ∀ v ∈ urls, ∃ j, Event.fetch v j ∈ diamondDone.out) ∧
    (∀ v j, Event.fetch v j ∈ diamondDone.out →
      0 < j ∧ (∃ n : Nat, (n : Int) + j = 3 ∧ v ∈ level (fakeFetcher.Fetch diamond) "A" n) ∧
      ((v = "A" ∧ j = 3) ∨
        ∃ u body urls, Event.fetch u (j + 1) ∈ diamondDone.out ∧
          fakeFetcher.Fetch diamond u = .ok (body, urls) ∧ v ∈ urls))) :=
  ⟨by decide, by decide,
    dispatched_fetched (fakeFetcher.Fetch diamond) "A" 3 diamondSched diamondDone
      (by decide) (by decide)⟩

/-- The steps of the crawl on their own always come to an end: the step
relation has no infinite chain, an execution from `startCrawl root d` has at
most `cost fetcher d.toNat root` steps, a live activation is never blocked,
and every execution extends to one with no activation left and the wait
group at zero.  What can keep the program from getting there is not a step:
see `overlap` and `run`. -/
theorem steps_terminate (fetcher : Fetcher) (root : String) (d : Int) :
    WellFounded (fun s1 s : State => ∃ i, step fetcher s i = some s1) ∧
    ∀ sched s, exec fetcher (startCrawl root d) sched = some s →
      sched.length ≤ cost fetcher d.toNat root ∧
      (∀ i, i < s.frames.length → (step fetcher s i).isSome = true) ∧
      ∃ more s1, exec fetcher (startCrawl root d) (sched ++ more) = some s1 ∧
        s1.frames = [] ∧ waitReturns s1 = true := by
  constructor
  · refine Subrelation.wf ?_ (measure (weight fetcher)).wf
    rintro s1 s ⟨i, hi⟩
    exact Step.weight_lt (step_sound fetcher s i s1 hi)
  · intro sched s h
    refine ⟨?_, fun i hi => step_live fetcher s (reach_live h) i hi, ?_⟩
    · have := exec_length_le fetcher sched _ s h
      simp only [weight, startCrawl, List.map_cons, List.map_nil, List.sum_cons, List.sum_nil,
        Frame.weight] at this
      omega
    · obtain ⟨more, s1, hex, hdone⟩ :=
        exists_complete fetcher (weight fetcher s) s (reach_live h) le_rfl
      have hall : exec fetcher (startCrawl root d) (sched ++ more) = some s1 := by
        rw [exec_append fetcher sched more _ s h, hex]
      refine ⟨more, s1, hall, hdone, ?_⟩
      have := reach_wg hall
      simp [waitReturns, this, outstanding, hdone]

/-- C5, the code at the failing input: `main` with its own table has a run
that ends with the process stopped by the runtime.  After the 15 steps of
`mainSched` the branch for cmd is about to insert into the map (line 27) and
the branch for pkg is about to look up in the same map (line 25), each holding
the lock of its own copy of the mutex, so the two accesses overlap; three
activations are still live and `wg.Wait()` has not returned. -/
theorem main_overlap :
    run (fakeFetcher.Fetch fetcher) main mainSched (some (1, 2)) = some (.fatal mainClash) ∧
    mainClash.frames.length = 3 ∧ waitReturns mainClash = false ∧
    mainClash.frames.map Frame.writesMap = [false, true, false] ∧
    mainClash.frames.map Frame.readsMap = [false, false, true] := by
  decide

theorem root_failure_states {fetcher : Fetcher} {u : String} {d : Int} {err : String}
    (hd : 0 < d) (hf : fetcher u = .error err) (sched : List Nat) (s : State)
    (h : exec fetcher (startCrawl u d) sched = some s) :
    s = startCrawl u d ∨
    s = ⟨⟨[], false, 1⟩, [.visiting ⟨u, false, .lock, false, none⟩ d], []⟩ ∨
    s = ⟨⟨[], false, 1⟩, [.visiting ⟨u, true, .lookup, false, none⟩ d], []⟩ ∨
    s = ⟨⟨[], false, 1⟩, [.visiting ⟨u, true, .branch, false, none⟩ d], []⟩ ∨
    s = ⟨⟨[u], false, 1⟩, [.visiting ⟨u, false, .returned, false, some false⟩ d], []⟩ ∨
    s = ⟨⟨[u], false, 1⟩, [.claimed u d], []⟩ ∨
    s = ⟨⟨[u], false, 1⟩, [.returning], [.fetch u d, .failed u err]⟩ ∨
    s = ⟨⟨[u], false, 0⟩, [], [.fetch u d, .failed u err]⟩ := by
  refine exec_invariant_step fetcher
    (fun s => s = startCrawl u d ∨
      s = ⟨⟨[], false, 1⟩, [.visiting ⟨u, false, .lock, false, none⟩ d], []⟩ ∨
      s = ⟨⟨[], false, 1⟩, [.visiting ⟨u, true, .lookup, false, none⟩ d], []⟩ ∨
      s = ⟨⟨[], false, 1⟩, [.visiting ⟨u, true, .branch, false, none⟩ d], []⟩ ∨
      s = ⟨⟨[u], false, 1⟩, [.visiting ⟨u, false, .returned, false, some false⟩ d], []⟩ ∨
      s = ⟨⟨[u], false, 1⟩, [.claimed u d], []⟩ ∨
      s = ⟨⟨[u], false, 1⟩, [.returning], [.fetch u d, .failed u err]⟩ ∨
      s = ⟨⟨[u], false, 0⟩, [], [.fetch u d, .failed u err]⟩) ?_ sched _ s (Or.inl rfl) h
  intro s0 i s1 hs hst
  have hnd : ¬ d ≤ 0 := by omega
  rcases hs with rfl | rfl | rfl | rfl | rfl | rfl | rfl | rfl
  · obtain ⟨r, hn, rfl⟩ := step_single fetcher _ _ _ i s1 hst
    simp only [Crawl.next, hnd, if_false, Option.some.injEq] at hn
    subst hn
    right; left
    simp [VisitCall.enter, counter, SafeCounter.Add]
  · obtain ⟨r, hn, rfl⟩ := step_single fetcher _ _ _ i s1 hst
    simp only [Crawl.next, VisitCall.next, Bool.false_eq_true, if_false,
      Option.some.injEq] at hn
    subst hn
    right; right; left
    rfl
  · obtain ⟨r, hn, rfl⟩ := step_single fetcher _ _ _ i s1 hst
    simp only [Crawl.next, VisitCall.next, Option.some.injEq] at hn
    subst hn
    right; right; right; left
    simp
  · obtain ⟨r, hn, rfl⟩ := step_single fetcher _ _ _ i s1 hst
    simp only [Crawl.next, VisitCall.next, Bool.not_false, if_true, Option.some.injEq] at hn
    subst hn
    right; right; right; right; left
    simp
  · obtain ⟨r, hn, rfl⟩ := step_single fetcher _ _ _ i s1 hst
    simp only [Crawl.next, Option.some.injEq, reduceCtorEq, if_false] at hn
    subst hn
    right; right; right; right; right; left
    rfl
  · obtain ⟨r, hn, rfl⟩ := step_single fetcher _ _ _ i s1 hst
    simp only [Crawl.next, hf, Option.some.injEq] at hn
    subst hn
    right; right; right; right; right; right; left
    simp
  · obtain ⟨r, hn, rfl⟩ := step_single fetcher _ _ _ i s1 hst
    simp only [Crawl.next, Option.some.injEq] at hn
    subst hn
    right; right; right; right; right; right; right
    simp [SafeCounter.Done]
  · simp [step] at hst

/-- C6: an invocation of `Crawl` with positive depth on an address not yet
in the set whose `Fetch` fails reports exactly one failure for the address
and no page, registers and starts no branch, and calls `wg.Done` once.  This
holds for the body run as one block; for its statements run one by one with no
other activation in between (five statements up to the claim, seven to the
end); and for each statement from the return of `visited` with false on,
whatever the other branches did to the counter.  With the root as that address
the crawl is seven steps long and ends with one call of `Fetch`, one failure
report and nothing else. -/
theorem fetch_failure_local (fetcher : Fetcher) (c : SafeCounter) (u : String) (d : Int)
    (err : String) (hd : 0 < d) (hu : u ∉ c.set) (hf : fetcher u = .error err) :
    Crawl u d fetcher c =
      (SafeCounter.Done { c with set := u :: c.set }, [], [.fetch u d, .failed u err]) ∧
    (c.mux = false → ∀ out,
      exec fetcher ⟨c, [.entry u d], out⟩ [0, 0, 0, 0, 0] =
        some ⟨{ c with set := u :: c.set }, [.claimed u d], out⟩ ∧
      exec fetcher ⟨c, [.entry u d], out⟩ [0, 0, 0, 0, 0, 0, 0] =
        some ⟨SafeCounter.Done { c with set := u :: c.set }, [],
          out ++ [.fetch u d, .failed u err]⟩) ∧
    (∀ (c1 : SafeCounter) (call : VisitCall), call.url = u → call.pc = .returned →
      call.result = some false →
      Crawl.next fetcher c1 (.visiting call d) = some (c1, [.claimed u d], [])) ∧
    (∀ c1, Crawl.next fetcher c1 (.claimed u d) =
      some (c1, [.returning], [.fetch u d, .failed u err])) ∧
    (∀ c2, Crawl.next fetcher c2 .returning = some (c2.Done, [], [])) ∧
    exec fetcher (startCrawl u d) [0, 0, 0, 0, 0, 0, 0] =
      some ⟨⟨[u], false, 0⟩, [], [.fetch u d, .failed u err]⟩ ∧
    (∀ sched s, exec fetcher (startCrawl u d) sched = some s → s.frames = [] →
      s = ⟨⟨[u], false, 0⟩, [], [.fetch u d, .failed u err]⟩) := by
  have hnd : ¬ d ≤ 0 := by omega
  refine ⟨?_, ?_, ?_, ?_, ?_, ?_, ?_⟩
  · simp [Crawl, hnd, visited, hu, hf, List.insert_of_not_mem]
  · intro hmux out
    constructor
    · rw [visit_absent_steps fetcher u d c [] out [] hd hmux hu]
      rfl
    · rw [visit_absent_steps fetcher u d c [] out [0, 0] hd hmux hu]
      simp [exec, step, Crawl.next, hf]
  · intro c1 call hurl hpc hr
    simp [Crawl.next, hpc, hr, hurl]
  · intro c1
    simp [Crawl.next, hf]
  · intro c2
    simp [Crawl.next]
  · rw [show startCrawl u d = ⟨counter.Add 1, [.entry u d], []⟩ from rfl,
      visit_absent_steps fetcher u d (counter.Add 1) [] [] [0, 0] hd rfl
        (by simp [counter, SafeCounter.Add])]
    simp [exec, step, Crawl.next, hf, counter, SafeCounter.Add, SafeCounter.Done]
  · intro sched s h hdone
    rcases root_failure_states hd hf sched s h with
      rfl | rfl | rfl | rfl | rfl | rfl | rfl | rfl
    · simp [startCrawl] at hdone
    · simp at hdone
    · simp at hdone
    · simp at hdone
    · simp at hdone
    · simp at hdone
    · simp at hdone
    · rfl

theorem fetch_failure_local_witness :
    (0 : Int) < 2 ∧ "X" ∉ counter.set ∧
    fakeFetcher.Fetch broken "X" = .error "not found: X" ∧
    (Crawl "X" 2 (fakeFetcher.Fetch broken) counter =
      (SafeCounter.Done { counter with set := "X" :: counter.set }, [],
        [.fetch "X" 2, .failed "X" "not found: X"]) ∧
    (counter.mux = false → ∀ out,
      exec (fakeFetcher.Fetch broken) ⟨counter, [.entry "X" 2], out⟩ [0, 0, 0, 0, 0] =
        some ⟨{ counter with set := "X" :: counter.set }, [.claimed "X" 2], out⟩ ∧
      exec (fakeFetcher.Fetch broken) ⟨counter, [.entry "X" 2], out⟩ [0, 0, 0, 0, 0, 0, 0] =
        some ⟨SafeCounter.Done { counter with set := "X" :: counter.set }, [],
          out ++ [.fetch "X" 2, .failed "X" "not found: X"]⟩) ∧
    (∀ (c1 : SafeCounter) (call : VisitCall), call.url = "X" → call.pc = .returned →
      call.result = some false →
      Crawl.next (fakeFetcher.Fetch broken) c1 (.visiting call 2) =
        some (c1, [.claimed "X" 2], [])) ∧
    (∀ c1, Crawl.next (fakeFetcher.Fetch broken) c1 (.claimed "X" 2) =
      some (c1, [.returning], [.fetch "X" 2, .failed "X" "not found: X"])) ∧
    (∀ c2, Crawl.next (fakeFetcher.Fetch broken) c2 .returning = some (c2.Done, [], [])) ∧
    exec (fakeFetcher.Fetch broken) (startCrawl "X" 2) [0, 0, 0, 0, 0, 0, 0] =
      some ⟨⟨["X"], false, 0⟩, [], [.fetch "X" 2, .failed "X" "not found: X"]⟩ ∧
    (∀ sched s, exec (fakeFetcher.Fetch broken) (startCrawl "X" 2) sched = some s →
      s.frames = [] → s = ⟨⟨["X"], false, 0⟩, [], [.fetch "X" 2, .failed "X" "not found: X"]⟩)) :=
  ⟨by decide, by decide, rfl,
    fetch_failure_local (fakeFetcher.Fetch broken) counter "X" 2 "not found: X"
      (by decide) (by decide) rfl⟩

/-- C7: in every state the crawl can reach, the wait group counter equals
the number of registered branches that have not yet completed (the live
activations of `Crawl`, plus the links registered by `wg.Add(1)` whose
goroutine is not yet started); it is never negative; and it is zero, so that
`wg.Wait()` returns, only when no activation is left. -/
theorem wait_group_counts (fetcher : Fetcher) (root : String) (d : Int) (sched : List Nat)
    (s : State) (h : exec fetcher (startCrawl root d) sched = some s) :
    s.counter.wg = (outstanding s : Int) ∧ 0 ≤ s.counter.wg ∧
    (s.counter.wg = 0 ↔ s.frames = []) ∧ (waitReturns s = true ↔ s.frames = []) := by
  have hwg := reach_wg h
  have hzero : s.counter.wg = 0 ↔ s.frames = [] := by
    rw [hwg]
    constructor
    · intro h0
      cases hfr : s.frames with
      | nil => rfl
      | cons fr rest =>
        have hu : 1 ≤ fr.units := by cases fr <;> simp [Frame.units]
        simp only [outstanding, hfr, List.map_cons, List.sum_cons] at h0
        omega
    · intro h0
      simp [outstanding, h0]
  refine ⟨hwg, by omega, hzero, ?_⟩
  simp only [waitReturns, beq_iff_eq]
  exact hzero

theorem wait_group_counts_witness :
    exec (fakeFetcher.Fetch abc) (startCrawl "A" 2) [0, 0, 0, 0, 0, 0, 0] = some abcMid ∧
    (abcMid.counter.wg = (outstanding abcMid : Int) ∧ 0 ≤ abcMid.counter.wg ∧
      (abcMid.counter.wg = 0 ↔ abcMid.frames = []) ∧
      (waitReturns abcMid = true ↔ abcMid.frames = [])) :=
  ⟨by decide,
    wait_group_counts (fakeFetcher.Fetch abc) "A" 2 [0, 0, 0, 0, 0, 0, 0] abcMid (by decide)⟩

/-- The part of failure isolation that holds in every execution: when a
branch with depth at least 2 has fetched a page with success, every link of
the page has been fetched by the time the crawl completes, whether or not
`Fetch` failed on another link; and a failing fetch is a step that only
replaces its own activation by one at its return. -/
theorem sibling_still_fetched (fetcher : Fetcher) (root : String) (d : Int) (sched : List Nat)
    (s : State) (h : exec fetcher (startCrawl root d) sched = some s) (hdone : s.frames = [])
    (u : String) (k : Int) (body : String) (urls : List String) (x y err : String)
    (hu : Event.fetch u k ∈ s.out) (hk : 2 ≤ k) (hf : fetcher u = .ok (body, urls))
    (hx : x ∈ urls) (hy : y ∈ urls) (hfx : fetcher x = .error err) :
    0 < fetchCount y s.out ∧ 0 < fetchCount x s.out ∧
    ∀ (s0 : State) (i : Nat) (j : Int), s0.frames[i]? = some (.claimed x j) →
      step fetcher s0 i = some
        { counter := s0.counter
          frames := s0.frames.take i ++ [.returning] ++ s0.frames.drop (i + 1)
          out := s0.out ++ [.fetch x j, .failed x err] } := by
  refine ⟨(fetchCount_pos_iff y s.out).mpr (done_link_fetched h hdone hu hf hk y hy),
    (fetchCount_pos_iff x s.out).mpr (done_link_fetched h hdone hu hf hk x hx), ?_⟩
  intro s0 i j hi
  simp [step, hi, Crawl.next, hfx]

/-- C9, the code at the failing input: on the page P with links X, Y, Y,
`Fetch` failing on X, with depth 2, every hypothesis of the claim is met (P is
fetched with success by the branch with depth 2, X and Y are distinct links)
and a schedule completes the crawl with Y fetched twice: the two branches for
Y both run the lookup of line 25 before either inserts. -/
theorem sibling_fetched_twice :
    exec (fakeFetcher.Fetch brokenTwice) (startCrawl "P" 2) brokenTwiceSched
      = some brokenTwiceDone ∧
    brokenTwiceDone.frames = [] ∧ Event.fetch "P" 2 ∈ brokenTwiceDone.out ∧
    fakeFetcher.Fetch brokenTwice "P" = .ok ("p", ["X", "Y", "Y"]) ∧
    fakeFetcher.Fetch brokenTwice "X" = .error "not found: X" ∧ "X" ≠ "Y" ∧
    fetchCount "Y" brokenTwiceDone.out = 2 :=
  ⟨by decide, by decide, by decide, rfl, rfl, by decide, by decide⟩

/-- C10, the code at the failing input: two calls of `visited` with the same
address on the empty set, each locking the mutex of its own receiver copy,
can both pass the lookup of line 25 before either inserts; both then return
false (newly claimed). -/
theorem visited_race_both_claim :
    (Race.exec (Race.enter counter ["a", "a"]) [0, 1, 0, 1, 0, 1]).map Race.results =
      some [some false, some false] := by
  decide

end Crawler
